import Mathlib

/-! # Verification of the PDF-OCR-Automation rename/OCR pipeline

A shallow embedding, over `Str := List Char`, of the string and
file-system logic of the repository:

* `estate_research_renamer_v2.py` — `EstateResearchRenamerV2`
  (tie-breaker rule, SOP v2.1 validation regex, filename building and
  truncation in `analyze_with_ai`, checksum generation, `process_file`,
  `process_files`);
* `pdf_renamer.py` — `PDFAnalyzer` (`process_pdf`, `process_files`);
* `src/processors/ocr_processor.py` — `has_text`, `ocr_pdf_like_adobe`,
  `process_directory`;
* `check_pdf_text.py` — `check_pdf_text`.

The file system is modelled as the set of names existing in the working
directory (a boolean predicate, or a finite list of names).  External
collaborators (the PyPDF2 extractor, the Gemini model, OCRmyPDF, SHA-256
internals) are modelled as parameters: only the repository's own logic
around them is embedded and proved about.
-/

set_option maxHeartbeats 1000000
set_option maxRecDepth 100000

/-- Characters of a Python `str`, modelled as a list of `Char`. -/
abbrev Str := List Char

/-- Coerce a Lean string literal to the `List Char` model. -/
def strL (s : String) : Str := s.data

/-! ## Decimal rendering of naturals (Python `str(n)` / `f"{n}"`) -/

/-- The character for a decimal digit `d < 10`. -/
def digitC (d : Nat) : Char := Char.ofNat (48 + d)

/-- Decimal rendering of a natural number, as Python `str(n)` produces it. -/
def decChars (n : Nat) : Str :=
  if n < 10 then [digitC n] else decChars (n / 10) ++ [digitC (n % 10)]
termination_by n
decreasing_by exact Nat.div_lt_self (by omega) (by norm_num)

/-- Python `f"{n:02d}"`: decimal rendering left-padded with `'0'` to width 2. -/
def fmt02 (n : Nat) : Str :=
  if n < 10 then '0' :: decChars n else decChars n

theorem digitC_inj {d e : Nat} (hd : d < 10) (he : e < 10)
    (h : digitC d = digitC e) : d = e := by
  interval_cases d <;> interval_cases e <;> revert h <;> decide

theorem decChars_eq_of_lt {n : Nat} (h : n < 10) : decChars n = [digitC n] := by
  rw [decChars]
  rw [if_pos h]

theorem decChars_eq_of_ge {n : Nat} (h : ¬ n < 10) :
    decChars n = decChars (n / 10) ++ [digitC (n % 10)] := by
  rw [decChars]
  rw [if_neg h]

theorem decChars_ne_nil (n : Nat) : decChars n ≠ [] := by
  by_cases h : n < 10
  · rw [decChars_eq_of_lt h]
    simp
  · rw [decChars_eq_of_ge h]
    simp

theorem decChars_inj : ∀ {n m : Nat}, decChars n = decChars m → n = m := by
  intro n
  induction n using Nat.strong_induction_on with
  | _ n ih =>
    intro m h
    by_cases hn : n < 10 <;> by_cases hm : m < 10
    · rw [decChars_eq_of_lt hn, decChars_eq_of_lt hm] at h
      exact digitC_inj hn hm (by simpa using h)
    · exfalso
      rw [decChars_eq_of_lt hn, decChars_eq_of_ge hm] at h
      have hlen := congrArg List.length h
      simp only [List.length_cons, List.length_append, List.length_nil] at hlen
      have := List.length_pos.mpr (decChars_ne_nil (m / 10))
      omega
    · exfalso
      rw [decChars_eq_of_ge hn, decChars_eq_of_lt hm] at h
      have hlen := congrArg List.length h
      simp only [List.length_cons, List.length_append, List.length_nil] at hlen
      have := List.length_pos.mpr (decChars_ne_nil (n / 10))
      omega
    · rw [decChars_eq_of_ge hn, decChars_eq_of_ge hm] at h
      have hlast : digitC (n % 10) = digitC (m % 10) := by
        have := congrArg (fun l => l.getLast?) h
        simpa using this
      have hmod : n % 10 = m % 10 :=
        digitC_inj (Nat.mod_lt _ (by norm_num)) (Nat.mod_lt _ (by norm_num)) hlast
      have hinit : decChars (n / 10) = decChars (m / 10) := by
        rw [hlast] at h
        exact List.append_cancel_right h
      have hdiv : n / 10 = m / 10 :=
        ih (n / 10) (Nat.div_lt_self (by omega) (by norm_num)) hinit
      omega

/-! ## Tie-breaker rule — `EstateResearchRenamerV2.apply_tie_breaker_rule`

The file system is abstracted to `ex : Str → Bool`, deciding whether a
file of the given name exists in the target directory
(`os.path.exists(os.path.join(directory, name))`).  A collision-log
entry records the fields the source writes (the wall-clock timestamp,
being real time, is not modelled). -/

/-- One entry of `self.collision_log` (sans timestamp). -/
structure Collision where
  originalAttempt : Str
  finalName : Str
  directory : Str
deriving DecidableEq, Repr

/-- The candidate name tried at a given counter value:
`f"{base_filename}-{counter:02d}{extension}"`. -/
def tieName (base ext : Str) (counter : Nat) : Str :=
  base ++ ('-' :: fmt02 counter) ++ ext

/-- The `while counter <= 99` search loop of `apply_tie_breaker_rule`:
returns the first non-existing candidate, or `none` once the counter
passes 99. -/
def tieBreakerLoop (ex : Str → Bool) (base ext : Str) (counter : Nat) :
    Option Str :=
  if counter ≤ 99 then
    if ex (tieName base ext counter) then tieBreakerLoop ex base ext (counter + 1)
    else some (tieName base ext counter)
  else none
termination_by 100 - counter
decreasing_by omega

/-- Embeds `EstateResearchRenamerV2.apply_tie_breaker_rule`: returns the chosen
filename together with the updated collision log; the `ValueError` raised
when the counter exceeds 99 becomes the `.error` case. -/
def applyTieBreakerRule (ex : Str → Bool) (base directory ext : Str)
    (log : List Collision) : Except Str (Str × List Collision) :=
  if ex (base ++ ext) then
    match tieBreakerLoop ex base ext 2 with
    | some newName =>
        .ok (newName, log ++ [⟨base ++ ext, newName, directory⟩])
    | none =>
        .error (strL "Unable to resolve filename collision - exceeded 99 duplicates for "
          ++ base)
  else
    .ok (base ++ ext, log)

theorem tieBreakerLoop_some (ex : Str → Bool) (base ext : Str) :
    ∀ k c s, 100 ≤ c + k → tieBreakerLoop ex base ext c = some s →
      ∃ N, c ≤ N ∧ N ≤ 99 ∧ ex (tieName base ext N) = false ∧
        (∀ m, c ≤ m → m < N → ex (tieName base ext m) = true) ∧
        s = tieName base ext N := by
  intro k
  induction k with
  | zero =>
      intro c s hc h
      rw [tieBreakerLoop] at h
      rw [if_neg (by omega)] at h
      exact absurd h (by simp)
  | succ k ih =>
      intro c s hc h
      rw [tieBreakerLoop] at h
      by_cases h99 : c ≤ 99
      · rw [if_pos h99] at h
        by_cases hex : ex (tieName base ext c) = true
        · rw [if_pos hex] at h
          obtain ⟨N, hN1, hN2, hN3, hN4, hN5⟩ := ih (c + 1) s (by omega) h
          exact ⟨N, by omega, hN2, hN3, fun m hm1 hm2 => by
            rcases Nat.eq_or_lt_of_le hm1 with rfl | hlt
            · exact hex
            · exact hN4 m (by omega) hm2, hN5⟩
        · rw [if_neg hex] at h
          exact ⟨c, le_refl c, h99, by simpa using hex, fun m hm1 hm2 => by omega,
            (Option.some_inj.mp h).symm⟩
      · rw [if_neg h99] at h
        exact absurd h (by simp)

theorem tieBreakerLoop_none (ex : Str → Bool) (base ext : Str) :
    ∀ k c, 100 ≤ c + k → tieBreakerLoop ex base ext c = none →
      ∀ n, c ≤ n → n ≤ 99 → ex (tieName base ext n) = true := by
  intro k
  induction k with
  | zero =>
      intro c hc _ n hn1 hn2
      omega
  | succ k ih =>
      intro c hc h n hn1 hn2
      rw [tieBreakerLoop] at h
      rw [if_pos (by omega)] at h
      by_cases hex : ex (tieName base ext c) = true
      · rw [if_pos hex] at h
        rcases Nat.eq_or_lt_of_le hn1 with rfl | hlt
        · exact hex
        · exact ih (c + 1) (by omega) h n (by omega) hn2
      · rw [if_neg hex] at h
        exact absurd h (by simp)

/-! ## Underscore joining and splitting (Python `'_'.join` / `str.split('_')`) -/

/-- Python `'_'.join(parts)` over the character-list model. -/
def joinUnd : List Str → Str
  | [] => []
  | [p] => p
  | p :: ps => p ++ '_' :: joinUnd ps

/-- Python `s.split('_')` (split on every underscore, keeping empty parts). -/
def splitUnd : Str → List Str
  | [] => [[]]
  | c :: s =>
      if c = '_' then [] :: splitUnd s
      else
        match splitUnd s with
        | [] => [[c]]
        | p :: ps => (c :: p) :: ps

theorem splitUnd_ne_nil (s : Str) : splitUnd s ≠ [] := by
  cases s with
  | nil => simp [splitUnd]
  | cons c s =>
      rw [splitUnd]
      by_cases h : c = '_'
      · rw [if_pos h]; simp
      · rw [if_neg h]
        cases splitUnd s <;> simp

theorem joinUnd_cons (p : Str) (ps : List Str) (h : ps ≠ []) :
    joinUnd (p :: ps) = p ++ '_' :: joinUnd ps := by
  cases ps with
  | nil => exact absurd rfl h
  | cons q qs => rfl

theorem joinUnd_splitUnd (s : Str) : joinUnd (splitUnd s) = s := by
  induction s with
  | nil => rfl
  | cons c s ih =>
      rw [splitUnd]
      by_cases h : c = '_'
      · rw [if_pos h, joinUnd_cons _ _ (splitUnd_ne_nil s)]
        simp [h, ih]
      · rw [if_neg h]
        rcases hs : splitUnd s with _ | ⟨p, ps⟩
        · exact absurd hs (splitUnd_ne_nil s)
        · cases ps with
          | nil =>
              have := ih
              rw [hs] at this
              simp only [joinUnd] at this ⊢
              simp [this]
          | cons q qs =>
              have := ih
              rw [hs] at this
              rw [joinUnd_cons _ _ (by simp)] at this ⊢
              simp only [List.cons_append]
              rw [this]

/-- Every character of a part produced by `splitUnd` occurs in the input. -/
theorem mem_of_mem_splitUnd {s : Str} {p : Str} {c : Char}
    (hp : p ∈ splitUnd s) (hc : c ∈ p) : c ∈ s := by
  induction s generalizing p with
  | nil =>
      simp only [splitUnd, List.mem_singleton] at hp
      subst hp
      exact absurd hc (by simp)
  | cons d s ih =>
      rw [splitUnd] at hp
      by_cases h : d = '_'
      · rw [if_pos h] at hp
        rcases List.mem_cons.mp hp with rfl | hp
        · exact absurd hc (by simp)
        · exact List.mem_cons_of_mem _ (ih hp hc)
      · rw [if_neg h] at hp
        rcases hs : splitUnd s with _ | ⟨q, qs⟩
        · exact absurd hs (splitUnd_ne_nil s)
        · rw [hs] at hp
          rcases List.mem_cons.mp hp with rfl | hp
          · rcases List.mem_cons.mp hc with rfl | hc
            · exact List.mem_cons_self _ _
            · exact List.mem_cons_of_mem _ (ih (by rw [hs]; exact List.mem_cons_self _ _) hc)
          · exact List.mem_cons_of_mem _ (ih (by rw [hs]; exact List.mem_cons_of_mem _ hp) hc)

/-- Parts produced by `splitUnd` never contain an underscore. -/
theorem splitUnd_no_und {s : Str} {p : Str} (hp : p ∈ splitUnd s) : '_' ∉ p := by
  induction s generalizing p with
  | nil =>
      simp only [splitUnd, List.mem_singleton] at hp
      subst hp
      simp
  | cons d s ih =>
      rw [splitUnd] at hp
      by_cases h : d = '_'
      · rw [if_pos h] at hp
        rcases List.mem_cons.mp hp with rfl | hp
        · simp
        · exact ih hp
      · rw [if_neg h] at hp
        rcases hs : splitUnd s with _ | ⟨q, qs⟩
        · exact absurd hs (splitUnd_ne_nil s)
        · rw [hs] at hp
          rcases List.mem_cons.mp hp with rfl | hp
          · intro hmem
            rcases List.mem_cons.mp hmem with h' | h'
            · exact h h'.symm
            · exact ih (by rw [hs]; exact List.mem_cons_self _ _) h'
          · exact ih (by rw [hs]; exact List.mem_cons_of_mem _ hp)

/-- Every character of `joinUnd ps` is an underscore or a character of a part. -/
theorem mem_joinUnd {ps : List Str} {c : Char} (hc : c ∈ joinUnd ps) :
    c = '_' ∨ ∃ p ∈ ps, c ∈ p := by
  induction ps with
  | nil => exact absurd hc (by simp [joinUnd])
  | cons p ps ih =>
      cases ps with
      | nil =>
          simp only [joinUnd] at hc
          exact Or.inr ⟨p, by simp, hc⟩
      | cons q qs =>
          rw [joinUnd_cons _ _ (by simp)] at hc
          rcases List.mem_append.mp hc with h | h
          · exact Or.inr ⟨p, by simp, h⟩
          · rcases List.mem_cons.mp h with rfl | h
            · exact Or.inl rfl
            · rcases ih h with h' | ⟨r, hr, hcr⟩
              · exact Or.inl h'
              · exact Or.inr ⟨r, List.mem_cons_of_mem _ hr, hcr⟩

/-- The function `splitUnd` is a left inverse of `joinUnd` on non-empty lists of
underscore-free parts. -/
theorem splitUnd_joinUnd : ∀ ps : List Str, ps ≠ [] →
    (∀ p ∈ ps, '_' ∉ p) → splitUnd (joinUnd ps) = ps := by
  have aux : ∀ p : Str, '_' ∉ p → ∀ t : Str,
      splitUnd (p ++ t) =
        match splitUnd t with
        | [] => [p]
        | q :: qs => (p ++ q) :: qs := by
    intro p hp t
    induction p with
    | nil =>
        cases ht : splitUnd t with
        | nil => exact absurd ht (splitUnd_ne_nil t)
        | cons q qs => simp [ht]
    | cons c p ih =>
        have hc : c ≠ '_' := fun h => hp (by rw [h]; exact List.mem_cons_self _ _)
        have hp' : '_' ∉ p := fun h => hp (List.mem_cons_of_mem _ h)
        cases ht : splitUnd t with
        | nil => exact absurd ht (splitUnd_ne_nil t)
        | cons q qs =>
            simp only [List.cons_append, splitUnd, if_neg hc, List.append_eq]
            rw [ih hp', ht]
  intro ps
  induction ps with
  | nil => intro h; exact absurd rfl h
  | cons p ps ih =>
      intro _ hfree
      cases ps with
      | nil =>
          simp only [joinUnd]
          have := aux p (hfree p (by simp)) []
          simpa [splitUnd] using this
      | cons q qs =>
          rw [joinUnd_cons _ _ (by simp)]
          have hrec := ih (by simp) (fun r hr => hfree r (List.mem_cons_of_mem _ hr))
          rw [aux p (hfree p (by simp)) ('_' :: joinUnd (q :: qs))]
          have hsp : splitUnd ('_' :: joinUnd (q :: qs)) =
              [] :: splitUnd (joinUnd (q :: qs)) := by
            simp [splitUnd]
          rw [hsp, hrec]
          simp

/-! ## Filename construction in `EstateResearchRenamerV2.analyze_with_ai`

The Gemini reply, already parsed from JSON, is a record of string
fields (modelled after the keys `analyze_with_ai` reads with
`result.get(...)`).  The embedded function covers the deterministic part
of `analyze_with_ai` after the JSON parse: component assembly,
sanitization and truncation. -/

/-- The fields of the parsed AI reply that `analyze_with_ai` uses. -/
structure AIReply where
  date : Str
  matterId : Str
  lastName : Str
  firstName : Str
  middleName : Str
  deptCode : Str
  docType : Str
  subtype : Str
  lifecycle : Str
  hasDerivative : Str
  derivativeCode : Str
  securityTag : Str
  legalDescription : Str
deriving Repr

/-- Characters removed by `re.sub(r'[<>:"/\\|?*]', '_', filename)`. -/
def bannedChar (c : Char) : Bool :=
  c = '<' || c = '>' || c = ':' || c = '"' || c = '/' || c = '\\' ||
  c = '|' || c = '?' || c = '*'

/-- The sanitization step of `analyze_with_ai`. -/
def sanitizeName (s : Str) : Str :=
  s.map (fun c => if bannedChar c then '_' else c)

/-- The `components` list built by `analyze_with_ai`, with the derivative
code appended to the lifecycle entry when `has_derivative == 'true'` and
the code is non-empty. -/
def aiComponents (r : AIReply) : List Str :=
  [r.date, r.matterId, r.lastName, r.firstName, r.middleName, r.deptCode,
   r.docType, r.subtype,
   if r.hasDerivative = strL "true" ∧ r.derivativeCode ≠ [] then
     r.lifecycle ++ r.derivativeCode
   else r.lifecycle,
   r.securityTag, r.legalDescription]

/-- The `while len('_'.join(parts)) > 137 and len(parts[-1]) > 10` loop:
`front` is `parts[:-1]` and `last` is `parts[-1]`, trimmed one character
at a time. -/
def trimLast (front : List Str) (last : Str) : Str :=
  if 137 < (joinUnd (front ++ [last])).length ∧ 10 < last.length then
    trimLast front last.dropLast
  else last
termination_by last.length
decreasing_by
  rename_i h
  rw [List.length_dropLast]
  omega

/-- The truncation branch of `analyze_with_ai` (entered when the
sanitized name is longer than 137 characters). -/
def truncateName (f : Str) : Str :=
  let parts := splitUnd f
  let front := parts.dropLast
  joinUnd (front ++ [trimLast front (parts.getLastD [])])

/-- The base filename computed by `analyze_with_ai` from a parsed reply:
join the components with underscores, sanitize, and truncate when longer
than 137 characters. -/
def analyzeBaseName (r : AIReply) : Str :=
  let filename := sanitizeName (joinUnd (aiComponents r))
  if 137 < filename.length then truncateName filename else filename

theorem trimLast_subset : ∀ (n : Nat) (last : Str), last.length ≤ n →
    ∀ front, trimLast front last ⊆ last := by
  intro n
  induction n with
  | zero =>
      intro last hlen front
      rw [trimLast]
      rw [if_neg (by omega)]
      exact fun a ha => ha
  | succ n ih =>
      intro last hlen front
      rw [trimLast]
      by_cases h : 137 < (joinUnd (front ++ [last])).length ∧ 10 < last.length
      · rw [if_pos h]
        refine (ih last.dropLast ?_ front).trans (List.dropLast_subset last)
        rw [List.length_dropLast]
        omega
      · rw [if_neg h]
        exact fun a ha => ha

theorem trimLast_exit : ∀ (n : Nat) (last : Str), last.length ≤ n → ∀ front,
    (joinUnd (front ++ [trimLast front last])).length ≤ 137 ∨
      (trimLast front last).length ≤ 10 := by
  intro n
  induction n with
  | zero =>
      intro last hlen front
      rw [trimLast]
      rw [if_neg (by omega)]
      omega
  | succ n ih =>
      intro last hlen front
      rw [trimLast]
      by_cases h : 137 < (joinUnd (front ++ [last])).length ∧ 10 < last.length
      · rw [if_pos h]
        refine ih last.dropLast ?_ front
        rw [List.length_dropLast]
        omega
      · rw [if_neg h]
        omega

theorem sanitizeName_no_banned {s : Str} {c : Char} (hc : c ∈ sanitizeName s) :
    bannedChar c = false := by
  obtain ⟨d, _, hd⟩ := List.mem_map.mp hc
  by_cases hb : bannedChar d = true
  · rw [← hd]
    simp only [hb, if_pos]
    decide
  · rw [← hd]
    simp only [Bool.not_eq_true] at hb
    simp [hb]

/-- No character of the name produced by `analyzeBaseName` is one of the
nine characters the sanitization step removes. -/
theorem analyzeBaseName_no_banned (r : AIReply) :
    ∀ c ∈ analyzeBaseName r, bannedChar c = false := by
  intro c hc
  rw [analyzeBaseName] at hc
  set f := sanitizeName (joinUnd (aiComponents r)) with hf
  by_cases hlen : 137 < f.length
  · rw [if_pos hlen] at hc
    rw [truncateName] at hc
    rcases mem_joinUnd hc with rfl | ⟨p, hp, hcp⟩
    · decide
    · rcases List.mem_append.mp hp with hfront | hlast
      · have hsub : p ∈ splitUnd f :=
          List.dropLast_subset _ hfront
        exact sanitizeName_no_banned (mem_of_mem_splitUnd hsub hcp)
      · have hpl : p = trimLast (splitUnd f).dropLast ((splitUnd f).getLastD [])
            := by simpa using hlast
        rw [hpl] at hcp
        have hcl : c ∈ (splitUnd f).getLastD [] :=
          trimLast_subset ((splitUnd f).getLastD []).length _ le_rfl _ hcp
        have hlastmem : (splitUnd f).getLastD [] ∈ splitUnd f := by
          have hne := splitUnd_ne_nil f
          rw [List.getLastD_eq_getLast? , List.getLast?_eq_getLast _ hne ]
          · exact Option.getD_some ▸ List.getLast_mem hne
        exact sanitizeName_no_banned (mem_of_mem_splitUnd hlastmem hcl)
  · rw [if_neg hlen] at hc
    exact sanitizeName_no_banned hc

/-- The final underscore-separated component of a name. -/
def lastComponent (s : Str) : Str :=
  (splitUnd s).getLastD []

/-- Either the name produced by `analyzeBaseName` fits in 137 characters,
or its final underscore-separated component has been trimmed down to at
most 10 characters (the truncation loop stops there even if the name is
still too long). -/
theorem analyzeBaseName_length (r : AIReply) :
    (analyzeBaseName r).length ≤ 137 ∨
      (lastComponent (analyzeBaseName r)).length ≤ 10 := by
  rw [analyzeBaseName]
  set f := sanitizeName (joinUnd (aiComponents r)) with hf
  by_cases hlen : 137 < f.length
  · rw [if_pos hlen]
    rw [truncateName]
    set front := (splitUnd f).dropLast with hfront
    set last := (splitUnd f).getLastD [] with hlast
    set R := trimLast front last with hR
    have hexit := trimLast_exit last.length last le_rfl front
    rcases hexit with h | h
    · exact Or.inl h
    · right
      have hfree : ∀ p ∈ front ++ [R], '_' ∉ p := by
        intro p hp
        rcases List.mem_append.mp hp with hpf | hpl
        · exact splitUnd_no_und (List.dropLast_subset _ hpf)
        · have : p = R := by simpa using hpl
          subst this
          intro hmem
          have hcl : '_' ∈ last := trimLast_subset last.length last le_rfl front hmem
          have hlastmem : last ∈ splitUnd f := by
            have hne := splitUnd_ne_nil f
            rw [hlast, List.getLastD_eq_getLast?, List.getLast?_eq_getLast _ hne]
            exact Option.getD_some ▸ List.getLast_mem hne
          exact splitUnd_no_und hlastmem hcl
      rw [lastComponent, splitUnd_joinUnd (front ++ [R]) (by simp) hfree]
      simpa using h
  · rw [if_neg hlen]
    exact Or.inl (by omega)

/-! ## `ocr_pdf_like_adobe` — backup, OCR invocation, restore

The OCR engine itself is external; its effect on the run is modelled by an
`OcrOutcome`: either the `ocrmypdf.ocr` call returns an exit code (0 is
`ExitCode.ok`), possibly having rewritten the output file, or the call
raises an exception, possibly after a partial write.  The state tracked is
the content of the input file and of its `.pdf.backup` sibling (`none`
when no backup file exists).  The embedding fixes `output_path = pdf_path`
(the default `output_path=None`), the scenario the claim addresses. -/

/-- Result of the `ocrmypdf.ocr(...)` call: an exit code or an exception,
each together with the content the call left in the output file (`none` =
file untouched). -/
inductive OcrOutcome (γ : Type) where
  | exitCode (code : Nat) (written : Option γ)
  | raised (written : Option γ)

/-- The content of `pdf_path` and of `pdf_path.with_suffix('.pdf.backup')`. -/
structure OcrState (γ : Type) where
  input : γ
  backup : Option γ
deriving DecidableEq, Repr

/-- Embeds `ocr_pdf_like_adobe(pdf_path, output_path=None, backup=...)` for
`output_path = pdf_path`: returns the boolean result of the function and
the final contents of the input file and its backup. -/
def ocrPdfLikeAdobe {γ : Type} (hasTextC : γ → Bool) (backup : Bool)
    (outcome : OcrOutcome γ) (st : OcrState γ) : Bool × OcrState γ :=
  -- `if backup and output_path == pdf_path: shutil.copy2(pdf_path, backup_path)`
  let st1 : OcrState γ := if backup then { st with backup := some st.input } else st
  match outcome with
  | .raised w =>
      -- the `except` handler prints and returns False; no restore happens
      (false, { st1 with input := w.getD st1.input })
  | .exitCode code w =>
      let st2 : OcrState γ := { st1 with input := w.getD st1.input }
      if code = 0 then
        -- `result == ocrmypdf.ExitCode.ok`
        if hasTextC st2.input then
          -- verified: `if backup and output_path == pdf_path and backup_path.exists()`
          (true, if backup ∧ st2.backup.isSome then { st2 with backup := none } else st2)
        else
          (true, st2)
      else
        -- failure: restore from backup when it exists, then unlink it
        if backup ∧ st2.backup.isSome then
          (false, { st2 with input := st2.backup.getD st2.input, backup := none })
        else
          (false, st2)

/-- With `backup=True`, a non-ok exit code restores the original input
content from the backup and returns `False`, deleting the backup file. -/
theorem ocrPdfLikeAdobe_exit_fail {γ : Type} (hasTextC : γ → Bool)
    (code : Nat) (w : Option γ) (st : OcrState γ) (h : code ≠ 0) :
    ocrPdfLikeAdobe hasTextC true (.exitCode code w) st =
      (false, { input := st.input, backup := none }) := by
  rw [ocrPdfLikeAdobe]
  simp [h]

/-- With `backup=True`, an ok exit code returns `True`; the backup file is
deleted exactly when the verification re-check finds text. -/
theorem ocrPdfLikeAdobe_exit_ok {γ : Type} (hasTextC : γ → Bool)
    (w : Option γ) (st : OcrState γ) :
    ocrPdfLikeAdobe hasTextC true (.exitCode 0 w) st =
      (true,
        { input := w.getD st.input,
          backup := if hasTextC (w.getD st.input) then none else some st.input }) := by
  rw [ocrPdfLikeAdobe]
  by_cases hv : hasTextC (w.getD st.input) = true
  · simp [hv]
  · simp only [Bool.not_eq_true] at hv
    simp [hv]

/-- With `backup=True`, a raised exception returns `False` without any
restore: the backup file stays on disk and the input keeps whatever the
OCR call wrote. -/
theorem ocrPdfLikeAdobe_raised {γ : Type} (hasTextC : γ → Bool)
    (w : Option γ) (st : OcrState γ) :
    ocrPdfLikeAdobe hasTextC true (.raised w) st =
      (false, { input := w.getD st.input, backup := some st.input }) := by
  rw [ocrPdfLikeAdobe]
  simp

/-! ## Searchable-text detection — `has_text` and `check_pdf_text`

A parsed PDF is the list of per-page extracted texts; a PDF that cannot
be opened or parsed is an `Except.error` carrying the exception text. -/

/-- Python whitespace stripped by `str.strip()` (the ASCII set). -/
def pySpace (c : Char) : Bool :=
  c = ' ' || c = '\t' || c = '\n' || c = '\r' || c = '\x0b' || c = '\x0c'

/-- Python `s.strip()`. -/
def pyStrip (s : Str) : Str :=
  ((s.dropWhile pySpace).reverse.dropWhile pySpace).reverse

/-- The accumulation loop of `has_text`/`check_pdf_text`: concatenate the
extracted text of the first `n` pages. -/
def collectPages (n : Nat) (pages : List Str) : Str :=
  match n, pages with
  | 0, _ => []
  | _, [] => []
  | n + 1, p :: ps => p ++ collectPages n ps

/-- Python `len(s.split())`: number of maximal whitespace-free runs.
Skipping leading whitespace leaves either nothing or a word whose head is
`c`; the rest of the word and the following text are `rest`. -/
def pyWordCount (s : Str) : Nat :=
  match h : s.dropWhile pySpace with
  | [] => 0
  | _ :: rest => 1 + pyWordCount (rest.dropWhile (fun d => !pySpace d))
termination_by s.length
decreasing_by
  have h1 : (s.dropWhile pySpace).length ≤ s.length :=
    (List.dropWhile_sublist pySpace).length_le
  rw [h] at h1
  have h2 : (rest.dropWhile (fun d => !pySpace d)).length ≤ rest.length :=
    (List.dropWhile_sublist _).length_le
  simp only [List.length_cons] at h1
  omega

/-- Embeds `ocr_processor.has_text` on a parsed PDF: extract the first two pages
and test `len(text.strip()) > 10`; any exception yields `False`. -/
def hasTextPdf (pdf : Except Str (List Str)) : Bool :=
  match pdf with
  | .error _ => false
  | .ok pages => 10 < (pyStrip (collectPages 2 pages)).length

/-- The statistics dictionary built by `check_pdf_text` on a readable PDF
(the `filename` and `sample` entries, pure formatting, are omitted). -/
structure CheckInfo where
  pages : Nat
  textLength : Nat
  wordCount : Nat
  hasTextKey : Bool
deriving DecidableEq, Repr

/-- Embeds `check_pdf_text.check_pdf_text`: first three pages are concatenated;
an exception yields the error dictionary instead of statistics. -/
def checkPdfText (pdf : Except Str (List Str)) : Except Str CheckInfo :=
  match pdf with
  | .error e => .error e
  | .ok pages =>
      let total := collectPages 3 pages
      .ok { pages := pages.length
            textLength := (pyStrip total).length
            wordCount := pyWordCount total
            hasTextKey := 10 < (pyStrip total).length }

theorem collectPages_eq_take (n : Nat) (pages : List Str) :
    collectPages n pages = (pages.take n).flatten := by
  induction n generalizing pages with
  | zero => simp [collectPages]
  | succ n ih =>
      cases pages with
      | nil => simp [collectPages]
      | cons p ps => simp [collectPages, ih]

/-! ## Directory scan — `ocr_processor.process_directory`

The files found by `target_dir.glob("*.pdf")` are modelled as a list of
pairs (name, parse result), in glob order. -/

/-- The queue `pdfs_to_process` built by `process_directory`: names not
ending in `.backup` whose `has_text` check fails. -/
def pdfsToProcess (files : List (Str × Except Str (List Str))) : List Str :=
  (files.filter (fun f => !(strL ".backup").isSuffixOf f.1 && !hasTextPdf f.2)).map
    Prod.fst

/-! ## Batch loop — `PDFAnalyzer.process_files` and
`EstateResearchRenamerV2.process_files`

Both methods run the same loop: process each file in order, collect the
result, and `time.sleep(0.5)` after every file except the last
(`if i < len(file_paths) - 1`).  The per-file call is a parameter `step`;
the second component counts the executed `time.sleep(0.5)` calls. -/

def processFilesGo {α β : Type} (step : α → β) (total : Nat) (i : Nat) :
    List α → List β × Nat
  | [] => ([], 0)
  | f :: rest =>
      let r := step f
      let (rs, sleeps) := processFilesGo step total (i + 1) rest
      (r :: rs, (if i < total - 1 then 1 else 0) + sleeps)

/-- The `for i, file_path in enumerate(file_paths)` loop of
`process_files`. -/
def processFilesLoop {α β : Type} (step : α → β) (files : List α) :
    List β × Nat :=
  processFilesGo step files.length 0 files

theorem processFilesGo_spec {α β : Type} (step : α → β) (total : Nat) :
    ∀ (rest : List α) (i : Nat), i + rest.length = total →
      processFilesGo step total i rest = (rest.map step, rest.length - 1) := by
  intro rest
  induction rest with
  | nil => intro i _; rfl
  | cons f rest ih =>
      intro i hi
      rw [processFilesGo]
      rw [ih (i + 1) (by simp at hi ⊢; omega)]
      simp only [List.map_cons, List.length_cons]
      cases rest with
      | nil =>
          simp only [List.length_nil, List.length_cons] at hi ⊢
          rw [if_neg (by omega)]
      | cons g rest' =>
          simp only [List.length_cons] at hi ⊢
          rw [if_pos (by omega)]
          simp only [Prod.mk.injEq, true_and]
          omega

/-- The loop of `process_files` is a single pass: one result per input, in order, and
one `time.sleep(0.5)` between consecutive files. -/
theorem processFilesLoop_spec {α β : Type} (step : α → β) (files : List α) :
    processFilesLoop step files = (files.map step, files.length - 1) := by
  rw [processFilesLoop]
  exact processFilesGo_spec step files.length files 0 (by simp)

/-! ## Checksums — `EstateResearchRenamerV2.generate_checksum`

`hashlib.sha256()` is modelled by what determines its digest: the
concatenation of all bytes passed to `update`.  The digest function `H`
(SHA-256 itself, an external primitive) is a parameter; `generate_checksum`
reads the file in 4096-byte blocks (`iter(lambda: f.read(4096), b"")`)
and feeds each block to `update`. -/

/-- The successive blocks returned by `f.read(4096)` on a file whose full
content is `content`. -/
def readBlocks4096 (content : List Nat) : List (List Nat) :=
  if content = [] then []
  else content.take 4096 :: readBlocks4096 (content.drop 4096)
termination_by content.length
decreasing_by
  rename_i h
  have : content.length ≠ 0 := fun hl => h (List.length_eq_zero.mp hl)
  simp only [List.length_drop]
  omega

/-- Embeds `EstateResearchRenamerV2.generate_checksum`, for digest function `H`:
the hash state accumulates each `update(byte_block)` and the digest is
taken at the end. -/
def generateChecksum (H : List Nat → Str) (content : List Nat) : Str :=
  H ((readBlocks4096 content).foldl (fun st block => st ++ block) [])

theorem readBlocks4096_flatten (content : List Nat) :
    (readBlocks4096 content).flatten = content := by
  generalize hn : content.length = n
  induction n using Nat.strong_induction_on generalizing content with
  | _ n ih =>
      rw [readBlocks4096]
      by_cases h : content = []
      · rw [if_pos h]
        simp [h]
      · rw [if_neg h]
        have hpos : 0 < content.length :=
          List.length_pos.mpr h
        rw [List.flatten_cons]
        rw [ih (content.drop 4096).length (by simp [List.length_drop]; omega) _ rfl]
        exact List.take_append_drop _ _

theorem generateChecksum_eq (H : List Nat → Str) (content : List Nat) :
    generateChecksum H content = H content := by
  rw [generateChecksum]
  have hfold : ∀ (blocks : List (List Nat)) (acc : List Nat),
      blocks.foldl (fun st block => st ++ block) acc = acc ++ blocks.flatten := by
    intro blocks
    induction blocks with
    | nil => intro acc; simp
    | cons b bs ih =>
        intro acc
        simp only [List.foldl_cons, List.flatten_cons, ih, List.append_assoc]
  rw [hfold, readBlocks4096_flatten]
  simp

/-! ## `EstateResearchRenamerV2.process_file`

The per-file pipeline.  Calls that are external or already modelled are
parameters: the extracted `text`, the AI base name and the
`security_tag` field of the parsed analysis (from `analyze_with_ai`,
which catches its own exceptions and always returns), the file-system
predicate `ex`, and the outcomes of the fallible file operations
(`generate_checksum`'s read, `os.rename`, and the checksum-file write),
each an `Except` whose error is caught by the outer `try`. -/

/-- Python `s.lower()` (ASCII case folding, which covers these names). -/
def lowerStr (s : Str) : Str := s.map Char.toLower

/-- Embeds `EstateResearchRenamerV2.get_file_type_category`, following the
insertion order of `SUPPORTED_EXTENSIONS`. -/
def getFileTypeCategory (extension : Str) : Str :=
  let ext := lowerStr extension
  if ext ∈ [strL ".pdf", strL ".docx", strL ".doc", strL ".txt"] then
    strL "documents"
  else if ext ∈ [strL ".jpg", strL ".jpeg", strL ".png", strL ".gif",
      strL ".bmp", strL ".tiff"] then
    strL "images"
  else if ext ∈ [strL ".wav", strL ".mp3", strL ".m4a", strL ".aac",
      strL ".wma"] then
    strL "audio"
  else if ext ∈ [strL ".mp4", strL ".avi", strL ".mov", strL ".wmv",
      strL ".mkv"] then
    strL "video"
  else if ext ∈ [strL ".xlsx", strL ".xls", strL ".csv", strL ".json",
      strL ".xml"] then
    strL "data"
  else strL "unknown"

/-- The result dictionary built by `process_file` (the `file_type` and
`analysis` entries, echoes of the inputs, are omitted). -/
structure FileResult where
  originalName : Str
  status : Str
  newName : Option Str
  checksum : Option Str
  error : Option Str
deriving DecidableEq, Repr

/-- Side effects of `process_file` on the directory. -/
structure FileEffects where
  renamedTo : Option Str
  sidecarWritten : Option Str
deriving DecidableEq, Repr

/-- Embeds `EstateResearchRenamerV2.process_file`.  Every `raise` inside the
`try` block lands in the `except` handler, which stamps the result with
status `"error"` and the exception text. -/
def processFileV2 (ex : Str → Bool) (directory extension : Str)
    (text : Str) (aiBase : Str) (secTag : Option Str)
    (checksumRes : Except Str Str) (renameRes : Except Str Unit)
    (writeRes : Except Str Unit) (fileName : Str) :
    FileResult × FileEffects :=
  let ftype := getFileTypeCategory extension
  let base : FileResult :=
    { originalName := fileName, status := strL "pending",
      newName := none, checksum := none, error := none }
  let noEff : FileEffects := { renamedTo := none, sidecarWritten := none }
  -- `if not text and result["file_type"] == "documents"`
  if text = [] ∧ ftype = strL "documents" then
    ({ base with
        status := strL "error",
        error := some (strL "No text extracted - may need OCR") }, noEff)
  else
    -- `self.apply_tie_breaker_rule(new_base_name, directory, extension)`
    match applyTieBreakerRule ex aiBase directory extension [] with
    | .error e => ({ base with status := strL "error", error := some e }, noEff)
    | .ok (newName, _) =>
        let r1 := { base with newName := some newName }
        -- `if analysis.get('security_tag') in ['S', 'R']: generate_checksum`
        let csStep : Except Str (Option Str) :=
          if secTag = some (strL "S") ∨ secTag = some (strL "R") then
            checksumRes.map some
          else .ok none
        match csStep with
        | .error e => ({ r1 with status := strL "error", error := some e }, noEff)
        | .ok cs =>
            let r2 := { r1 with checksum := cs }
            -- `if os.path.basename(file_path).lower() == new_name.lower()`
            if lowerStr fileName = lowerStr newName then
              ({ r2 with status := strL "skip" }, noEff)
            else
              match renameRes with
              | .error e =>
                  ({ r2 with status := strL "error", error := some e }, noEff)
              | .ok _ =>
                  match cs with
                  | none =>
                      ({ r2 with status := strL "renamed" },
                       { noEff with renamedTo := some newName })
                  | some _ =>
                      match writeRes with
                      | .ok _ =>
                          ({ r2 with status := strL "renamed" },
                           { renamedTo := some newName,
                             sidecarWritten := some (newName ++ strL ".sha256") })
                      | .error e =>
                          ({ r2 with status := strL "error", error := some e },
                           { noEff with renamedTo := some newName })

/-! ## `PDFAnalyzer.process_pdf`

Here the directory is a finite list `fs` of existing names (the
duplicate-handling `while os.path.exists(new_path)` loop has no bound in
the source; over a finite directory it stops within `fs.length + 1`
probes, which the fuel below makes explicit and
`findFreeNumbered_isSome` proves sufficient). -/

/-- Embeds `os.path.splitext`: split at the last dot, unless every character
before it is itself a dot. -/
def pySplitExt (s : Str) : Str × Str :=
  match (s.reverse.findIdx? (fun c => c = '.')).map (fun j => s.length - 1 - j) with
  | none => (s, [])
  | some i =>
      if (s.take i).all (fun c => c = '.') then (s, [])
      else (s.take i, s.drop i)

/-- The `while os.path.exists(new_path)` loop of `process_pdf`: probe
`mk 1, mk 2, ...` and return the first name that does not exist. -/
def findFreeNumbered (ex : Str → Bool) (mk : Nat → Str) :
    Nat → Nat → Option Str
  | _, 0 => none
  | c, fuel + 1 =>
      if ex (mk c) then findFreeNumbered ex mk (c + 1) fuel else some (mk c)

/-- The result dictionary built by `process_pdf`. -/
structure PdfResult where
  originalName : Str
  status : Str
  newName : Option Str
  error : Option Str
deriving DecidableEq, Repr

/-- Embeds `PDFAnalyzer.process_pdf`.  Here `newBase` is the sanitized filename
returned by `generate_filename` (which catches its own exceptions);
the second component is the name the file was renamed to, if any. -/
def processPdf (fs : List Str) (text : Str) (newBase : Str)
    (renameRes : Except Str Unit) (fileName : Str) :
    PdfResult × Option Str :=
  let base : PdfResult :=
    { originalName := fileName, status := strL "pending",
      newName := none, error := none }
  -- `if not text.strip()`
  if pyStrip text = [] then
    ({ base with
        status := strL "error",
        error := some (strL "No text extracted - may need OCR") }, none)
  else
    let newName := newBase ++ strL ".pdf"
    -- `if result["original_name"].lower() == new_name.lower()`
    if lowerStr fileName = lowerStr newName then
      ({ base with newName := some newName, status := strL "skip" }, none)
    else
      -- `if os.path.exists(new_path) and new_path != pdf_path`
      let finalName :=
        if decide (newName ∈ fs) ∧ newName ≠ fileName then
          let be := pySplitExt newName
          match findFreeNumbered (fun n => decide (n ∈ fs))
              (fun k => be.1 ++ '_' :: decChars k ++ be.2) 1 (fs.length + 1) with
          | some n => n
          | none => newName
        else newName
      match renameRes with
      | .ok _ =>
          ({ base with newName := some finalName, status := strL "renamed" },
           some finalName)
      | .error e =>
          ({ base with
              newName := some finalName,
              status := strL "error",
              error := some e }, none)

theorem findFreeNumbered_of_count (ex : Str → Bool) (mk : Nat → Str) :
    ∀ (fuel c : Nat),
      ((List.range' c fuel).countP (fun k => ex (mk k))) < fuel →
      (findFreeNumbered ex mk c fuel).isSome := by
  intro fuel
  induction fuel with
  | zero => intro c h; omega
  | succ fuel ih =>
      intro c h
      rw [findFreeNumbered]
      by_cases hex : ex (mk c) = true
      · rw [if_pos hex]
        refine ih (c + 1) ?_
        rw [List.range'_succ, List.countP_cons, if_pos hex] at h
        omega
      · rw [if_neg hex]
        simp

theorem count_hits_le (fs : List Str) (mk : Nat → Str)
    (hinj : ∀ i j, mk i = mk j → i = j) (c fuel : Nat) :
    ((List.range' c fuel).countP (fun k => decide (mk k ∈ fs))) ≤ fs.length := by
  rw [List.countP_eq_length_filter]
  set hits := (List.range' c fuel).filter (fun k => decide (mk k ∈ fs)) with hh
  have hnodup : hits.Nodup := (List.nodup_range' _ _).filter _
  have hmapnodup : (hits.map mk).Nodup :=
    hnodup.map (fun a b hab => hinj a b hab)
  have hsub : (hits.map mk).toFinset ⊆ fs.toFinset := by
    intro x hx
    rw [List.mem_toFinset] at hx ⊢
    obtain ⟨k, hk, rfl⟩ := List.mem_map.mp hx
    have := List.of_mem_filter hk
    simpa using this
  calc hits.length = (hits.map mk).length := (List.length_map _ _).symm
    _ = (hits.map mk).toFinset.card := (List.toFinset_card_of_nodup hmapnodup).symm
    _ ≤ fs.toFinset.card := Finset.card_le_card hsub
    _ ≤ fs.length := List.toFinset_card_le _

/-- Over a finite directory, the duplicate-name probe always finds a free
name within `fs.length + 1` attempts. -/
theorem findFreeNumbered_isSome (fs : List Str) (mk : Nat → Str)
    (hinj : ∀ i j, mk i = mk j → i = j) (c : Nat) :
    (findFreeNumbered (fun n => decide (n ∈ fs)) mk c (fs.length + 1)).isSome := by
  refine findFreeNumbered_of_count _ _ _ _ ?_
  have := count_hits_le fs mk hinj c (fs.length + 1)
  omega

theorem processFileV2_status (ex : Str → Bool) (directory extension : Str)
    (text : Str) (aiBase : Str) (secTag : Option Str)
    (checksumRes : Except Str Str) (renameRes : Except Str Unit)
    (writeRes : Except Str Unit) (fileName : Str) :
    (processFileV2 ex directory extension text aiBase secTag checksumRes
        renameRes writeRes fileName).1.status = strL "renamed" ∨
    (processFileV2 ex directory extension text aiBase secTag checksumRes
        renameRes writeRes fileName).1.status = strL "skip" ∨
    (processFileV2 ex directory extension text aiBase secTag checksumRes
        renameRes writeRes fileName).1.status = strL "error" := by
  rw [processFileV2]
  cases checksumRes <;> simp only [Except.map] <;> repeat' split
  all_goals simp

theorem processPdf_status (fs : List Str) (text : Str) (newBase : Str)
    (renameRes : Except Str Unit) (fileName : Str) :
    (processPdf fs text newBase renameRes fileName).1.status = strL "renamed" ∨
    (processPdf fs text newBase renameRes fileName).1.status = strL "skip" ∨
    (processPdf fs text newBase renameRes fileName).1.status = strL "error" := by
  rw [processPdf]
  by_cases h1 : pyStrip text = []
  · simp [h1]
  · simp only [if_neg h1]
    by_cases h2 : lowerStr fileName = lowerStr (newBase ++ strL ".pdf")
    · simp [h2]
    · simp only [if_neg h2]
      cases renameRes <;> simp

/-! ## The summary of `process_files`

`successful`, `skipped` and `errors` are the counts of the three status
values over the result list. -/

/-- The three counts computed by the `summary` dictionary. -/
def summaryCounts (statuses : List Str) : Nat × Nat × Nat :=
  (statuses.countP (fun s => decide (s = strL "renamed")),
   statuses.countP (fun s => decide (s = strL "skip")),
   statuses.countP (fun s => decide (s = strL "error")))

theorem summaryCounts_total (statuses : List Str)
    (h : ∀ s ∈ statuses, s = strL "renamed" ∨ s = strL "skip" ∨ s = strL "error") :
    (summaryCounts statuses).1 + (summaryCounts statuses).2.1 +
      (summaryCounts statuses).2.2 = statuses.length := by
  induction statuses with
  | nil => rfl
  | cons s rest ih =>
      have hs := h s (List.mem_cons_self _ _)
      have hrest := ih (fun t ht => h t (List.mem_cons_of_mem _ ht))
      simp only [summaryCounts] at hrest ⊢
      rcases hs with hs | hs | hs <;> subst hs <;>
        · simp [List.countP_cons, strL] at hrest ⊢
          omega

/-- The checksum field of a `process_file` result that reached the rename
decision (status `"renamed"` or `"skip"`) is set exactly when the
analysis carries security tag `S` or `R`. -/
theorem processFileV2_checksum (ex : Str → Bool) (directory extension : Str)
    (text : Str) (aiBase : Str) (secTag : Option Str)
    (checksumRes : Except Str Str) (renameRes : Except Str Unit)
    (writeRes : Except Str Unit) (fileName : Str)
    (h : (processFileV2 ex directory extension text aiBase secTag checksumRes
        renameRes writeRes fileName).1.status = strL "renamed" ∨
      (processFileV2 ex directory extension text aiBase secTag checksumRes
        renameRes writeRes fileName).1.status = strL "skip") :
    ((processFileV2 ex directory extension text aiBase secTag checksumRes
        renameRes writeRes fileName).1.checksum.isSome ↔
      (secTag = some (strL "S") ∨ secTag = some (strL "R"))) := by
  revert h
  rw [processFileV2]
  by_cases htag : secTag = some (strL "S") ∨ secTag = some (strL "R")
  · simp only [if_pos htag]
    cases checksumRes with
    | ok v =>
        simp only [Except.map]
        repeat' split
        all_goals intro h
        all_goals simp_all [strL]
    | error e =>
        simp only [Except.map]
        repeat' split
        all_goals intro h
        all_goals simp_all [strL]
  · simp only [if_neg htag]
    repeat' split
    all_goals intro h
    all_goals simp_all [strL]

/-- A `.sha256` sidecar file is written exactly for files that were
actually renamed and whose analysis carries security tag `S` or `R`. -/
theorem processFileV2_sidecar (ex : Str → Bool) (directory extension : Str)
    (text : Str) (aiBase : Str) (secTag : Option Str)
    (checksumRes : Except Str Str) (renameRes : Except Str Unit)
    (writeRes : Except Str Unit) (fileName : Str) :
    ((processFileV2 ex directory extension text aiBase secTag checksumRes
        renameRes writeRes fileName).2.sidecarWritten.isSome ↔
      ((processFileV2 ex directory extension text aiBase secTag checksumRes
          renameRes writeRes fileName).1.status = strL "renamed" ∧
        (secTag = some (strL "S") ∨ secTag = some (strL "R")))) := by
  rw [processFileV2]
  by_cases htag : secTag = some (strL "S") ∨ secTag = some (strL "R")
  · simp only [if_pos htag]
    cases checksumRes with
    | ok v =>
        simp only [Except.map]
        repeat' split
        all_goals simp_all [strL]
    | error e =>
        simp only [Except.map]
        repeat' split
        all_goals simp_all [strL]
  · simp only [if_neg htag]
    repeat' split
    all_goals simp_all [strL]

/-! ## A small regular-expression engine

`validate_filename` applies Python's `re` to `VALIDATION_PATTERN`.  The
pattern is embedded as a regular expression over `Char` with
character-class atoms, matched by Brzozowski derivatives; the engine is
proved correct against the usual language decomposition, so the
backtracking choices Python's engine makes are captured by the
existential statements below. -/

/-- Regular expressions with character-class atoms. -/
inductive RE where
  | zero : RE
  | eps : RE
  | cls : (Char → Bool) → RE
  | plus : RE → RE → RE
  | comp : RE → RE → RE
  | star : RE → RE

namespace RE

/-- Does the expression accept the empty string? -/
def matchEps : RE → Bool
  | .zero => false
  | .eps => true
  | .cls _ => false
  | .plus P Q => matchEps P || matchEps Q
  | .comp P Q => matchEps P && matchEps Q
  | .star _ => true

/-- Brzozowski derivative by one character. -/
def deriv : RE → Char → RE
  | .zero, _ => .zero
  | .eps, _ => .zero
  | .cls p, a => if p a then .eps else .zero
  | .plus P Q, a => .plus (deriv P a) (deriv Q a)
  | .comp P Q, a =>
      if matchEps P then .plus (.comp (deriv P a) Q) (deriv Q a)
      else .comp (deriv P a) Q
  | .star P, a => .comp (deriv P a) (.star P)

/-- Derivative-based matching. -/
def rmatch : RE → Str → Bool
  | P, [] => matchEps P
  | P, a :: as => rmatch (P.deriv a) as

theorem zero_rmatch (x : Str) : rmatch .zero x = false := by
  induction x with
  | nil => rfl
  | cons a as ih => simpa [rmatch, deriv] using ih

theorem eps_rmatch (x : Str) : rmatch .eps x = true ↔ x = [] := by
  cases x with
  | nil => simp [rmatch, matchEps]
  | cons a as => simp [rmatch, deriv, zero_rmatch]

theorem cls_rmatch (p : Char → Bool) (x : Str) :
    rmatch (.cls p) x = true ↔ ∃ c, x = [c] ∧ p c = true := by
  cases x with
  | nil => simp [rmatch, matchEps]
  | cons a as =>
      rw [rmatch]
      rw [deriv]
      by_cases hp : p a = true
      · rw [if_pos hp]
        rw [eps_rmatch]
        constructor
        · rintro rfl
          exact ⟨a, rfl, hp⟩
        · rintro ⟨c, hc, _⟩
          cases hc
          rfl
      · rw [if_neg hp]
        rw [zero_rmatch]
        constructor
        · intro hfalse
          cases hfalse
        · rintro ⟨c, hc, hcp⟩
          cases hc
          exact absurd hcp hp

theorem plus_rmatch (P Q : RE) (x : Str) :
    rmatch (.plus P Q) x = true ↔ rmatch P x = true ∨ rmatch Q x = true := by
  induction x generalizing P Q with
  | nil => simp [rmatch, matchEps]
  | cons a as ih =>
      rw [rmatch, deriv]
      rw [ih]
      exact Iff.rfl

theorem comp_rmatch (P Q : RE) (x : Str) :
    rmatch (.comp P Q) x = true ↔
      ∃ t u, x = t ++ u ∧ rmatch P t = true ∧ rmatch Q u = true := by
  induction x generalizing P Q with
  | nil =>
      rw [rmatch]
      rw [matchEps]
      constructor
      · intro h
        rw [Bool.and_eq_true] at h
        exact ⟨[], [], rfl, by rw [rmatch]; exact h.1, by rw [rmatch]; exact h.2⟩
      · rintro ⟨t, u, htu, ht, hu⟩
        obtain ⟨rfl, rfl⟩ := List.append_eq_nil.mp htu.symm
        rw [rmatch] at ht hu
        rw [ht, hu]
        rfl
  | cons a as ih =>
      rw [rmatch, deriv]
      by_cases hP : matchEps P = true
      · rw [if_pos hP]
        rw [plus_rmatch, ih]
        constructor
        · rintro (⟨t, u, htu, ht, hu⟩ | h)
          · exact ⟨a :: t, u, by rw [htu]; rfl, by rw [rmatch]; exact ht, hu⟩
          · exact ⟨[], a :: as, rfl, by rw [rmatch]; exact hP, h⟩
        · rintro ⟨t, u, htu, ht, hu⟩
          cases t with
          | nil =>
              right
              cases htu
              exact hu
          | cons b t' =>
              left
              obtain ⟨rfl, rfl⟩ : b = a ∧ as = t' ++ u := by
                rw [List.cons_append] at htu
                exact ⟨(List.cons_eq_cons.mp htu).1.symm, (List.cons_eq_cons.mp htu).2⟩
              rw [rmatch] at ht
              exact ⟨t', u, rfl, ht, hu⟩
      · rw [if_neg hP]
        rw [ih]
        constructor
        · rintro ⟨t, u, htu, ht, hu⟩
          exact ⟨a :: t, u, by rw [htu]; rfl, by rw [rmatch]; exact ht, hu⟩
        · rintro ⟨t, u, htu, ht, hu⟩
          cases t with
          | nil =>
              cases htu
              rw [rmatch] at ht
              exact absurd ht hP
          | cons b t' =>
              obtain ⟨rfl, rfl⟩ : b = a ∧ as = t' ++ u := by
                rw [List.cons_append] at htu
                exact ⟨(List.cons_eq_cons.mp htu).1.symm, (List.cons_eq_cons.mp htu).2⟩
              rw [rmatch] at ht
              exact ⟨t', u, rfl, ht, hu⟩

theorem star_cls_rmatch (p : Char → Bool) (x : Str) :
    rmatch (.star (.cls p)) x = true ↔ ∀ c ∈ x, p c = true := by
  induction x with
  | nil => simp [rmatch, matchEps]
  | cons a as ih =>
      rw [rmatch, deriv]
      rw [deriv]
      by_cases hp : p a = true
      · rw [if_pos hp]
        rw [comp_rmatch]
        constructor
        · rintro ⟨t, u, htu, ht, hu⟩
          rw [eps_rmatch] at ht
          subst ht
          cases htu
          intro c hc
          rcases List.mem_cons.mp hc with rfl | hc
          · exact hp
          · exact ih.mp hu c hc
        · intro h
          exact ⟨[], as, rfl, by rw [eps_rmatch],
            ih.mpr (fun c hc => h c (List.mem_cons_of_mem _ hc))⟩
      · rw [if_neg hp]
        constructor
        · intro h
          exfalso
          obtain ⟨t, u, _, ht, _⟩ := (comp_rmatch _ _ _).mp h
          rw [zero_rmatch] at ht
          cases ht
        · intro h
          exact absurd (h a (List.mem_cons_self _ _)) hp

/-- One or more repetitions, the regex `r+`. -/
def many1 (r : RE) : RE := .comp r (.star r)

/-- Zero or one occurrence, the regex `r?`. -/
def opt (r : RE) : RE := .plus .eps r

/-- Exactly `n` repetitions, the regex form with a counted brace group. -/
def repN : Nat → RE → RE
  | 0, _ => .eps
  | n + 1, r => .comp r (repN n r)

/-- A literal string. -/
def lit : Str → RE
  | [] => .eps
  | c :: s => .comp (.cls (fun d => d = c)) (lit s)

theorem many1_cls_rmatch (p : Char → Bool) (x : Str) :
    rmatch (many1 (.cls p)) x = true ↔ x ≠ [] ∧ ∀ c ∈ x, p c = true := by
  rw [many1, comp_rmatch]
  constructor
  · rintro ⟨t, u, htu, ht, hu⟩
    obtain ⟨c, rfl, hc⟩ := (cls_rmatch _ _).mp ht
    subst htu
    refine ⟨by simp, ?_⟩
    intro d hd
    rcases List.mem_cons.mp hd with rfl | hd
    · exact hc
    · exact (star_cls_rmatch _ _).mp hu d hd
  · rintro ⟨hne, hall⟩
    cases x with
    | nil => exact absurd rfl hne
    | cons c cs =>
        exact ⟨[c], cs, rfl,
          (cls_rmatch _ _).mpr ⟨c, rfl, hall c (List.mem_cons_self _ _)⟩,
          (star_cls_rmatch _ _).mpr (fun d hd => hall d (List.mem_cons_of_mem _ hd))⟩

theorem opt_rmatch (r : RE) (x : Str) :
    rmatch (opt r) x = true ↔ x = [] ∨ rmatch r x = true := by
  rw [opt, plus_rmatch, eps_rmatch]

theorem repN_cls_rmatch (p : Char → Bool) (n : Nat) (x : Str) :
    rmatch (repN n (.cls p)) x = true ↔
      x.length = n ∧ ∀ c ∈ x, p c = true := by
  induction n generalizing x with
  | zero =>
      rw [repN, eps_rmatch]
      constructor
      · rintro rfl
        simp
      · rintro ⟨hlen, _⟩
        exact List.length_eq_zero.mp hlen
  | succ n ih =>
      rw [repN, comp_rmatch]
      constructor
      · rintro ⟨t, u, htu, ht, hu⟩
        obtain ⟨c, rfl, hc⟩ := (cls_rmatch _ _).mp ht
        obtain ⟨hlen, hall⟩ := (ih u).mp hu
        subst htu
        refine ⟨by simp [hlen], ?_⟩
        intro d hd
        rcases List.mem_cons.mp hd with rfl | hd
        · exact hc
        · exact hall d hd
      · rintro ⟨hlen, hall⟩
        cases x with
        | nil => simp at hlen
        | cons c cs =>
            refine ⟨[c], cs, rfl,
              (cls_rmatch _ _).mpr ⟨c, rfl, hall c (List.mem_cons_self _ _)⟩, ?_⟩
            refine (ih cs).mpr ⟨by simpa using hlen, ?_⟩
            exact fun d hd => hall d (List.mem_cons_of_mem _ hd)

theorem lit_rmatch (s x : Str) : rmatch (lit s) x = true ↔ x = s := by
  induction s generalizing x with
  | nil =>
      rw [lit, eps_rmatch]
  | cons c cs ih =>
      rw [lit, comp_rmatch]
      constructor
      · rintro ⟨t, u, htu, ht, hu⟩
        obtain ⟨d, rfl, hd⟩ := (cls_rmatch _ _).mp ht
        rw [decide_eq_true_eq] at hd
        subst hd
        rw [(ih u).mp hu] at htu
        exact htu
      · rintro rfl
        exact ⟨[c], cs, rfl, (cls_rmatch _ _).mpr ⟨c, rfl, by simp⟩, (ih cs).mpr rfl⟩

end RE

/-! ## The SOP v2.1 validation pattern — `VALIDATION_PATTERN` and
`EstateResearchRenamerV2.validate_filename`

The character classes of the source regex. -/

/-- The class `[0-9]`. -/
def isDig (c : Char) : Bool := 48 ≤ c.toNat && c.toNat ≤ 57

/-- The class `[A-Za-z]`. -/
def isAlpha (c : Char) : Bool :=
  (65 ≤ c.toNat && c.toNat ≤ 90) || (97 ≤ c.toNat && c.toNat ≤ 122)

/-- The class `[A-Za-z0-9_]`. -/
def isAlnumU (c : Char) : Bool := isAlpha c || isDig c || c = '_'

/-- The class `[DSFAR]`. -/
def isLifeLead (c : Char) : Bool :=
  c = 'D' || c = 'S' || c = 'F' || c = 'A' || c = 'R'

/-- The class `[PICSR]`. -/
def isSecTag (c : Char) : Bool :=
  c = 'P' || c = 'I' || c = 'C' || c = 'S' || c = 'R'

/-- The literal `_` separating the fields. -/
def undRE : RE := RE.lit (strL "_")

/-- The group `(LEG|FIN|ADM|TAX|INS|REI)`. -/
def deptRE : RE :=
  .plus (RE.lit (strL "LEG")) (.plus (RE.lit (strL "FIN"))
    (.plus (RE.lit (strL "ADM")) (.plus (RE.lit (strL "TAX"))
      (.plus (RE.lit (strL "INS")) (RE.lit (strL "REI"))))))

/-- The group `(_OCR|_BK|_RED)`. -/
def derivAltRE : RE :=
  .plus (RE.lit (strL "_OCR")) (.plus (RE.lit (strL "_BK")) (RE.lit (strL "_RED")))

/-- The lifecycle group `([DSFAR][0-9]+(_OCR|_BK|_RED)?)`. -/
def lifecycleRE : RE :=
  .comp (.cls isLifeLead) (.comp (RE.many1 (.cls isDig)) (RE.opt derivAltRE))

/-- The extension group `(pdf|docx|xlsx|jpg|png|mp4|wav|csv)`. -/
def extAltRE : RE :=
  .plus (RE.lit (strL "pdf")) (.plus (RE.lit (strL "docx"))
    (.plus (RE.lit (strL "xlsx")) (.plus (RE.lit (strL "jpg"))
      (.plus (RE.lit (strL "png")) (.plus (RE.lit (strL "mp4"))
        (.plus (RE.lit (strL "wav")) (RE.lit (strL "csv"))))))))

/-- Right-nested concatenation of a list of expressions. -/
def catAll : List RE → RE
  | [] => .eps
  | [r] => r
  | r :: rs => .comp r (catAll rs)

/-- The body of `VALIDATION_PATTERN` between `^` and `$`, as written in
the source: the groups in order, separated by literal underscores. -/
def sopCore : RE :=
  catAll
    [RE.repN 8 (.cls isDig), undRE,
     RE.many1 (.cls isAlnumU), undRE,
     RE.many1 (.cls isAlpha), undRE,
     RE.many1 (.cls isAlpha), undRE,
     .plus (RE.many1 (.cls isAlpha)) (RE.lit (strL "NA")), undRE,
     deptRE, undRE,
     RE.many1 (.cls isAlpha), undRE,
     RE.many1 (.cls isAlpha), undRE,
     lifecycleRE, undRE,
     .cls isSecTag, undRE,
     RE.many1 (.cls isAlnumU),
     RE.opt (.comp (RE.lit (strL "-")) (RE.repN 2 (.cls isDig))),
     RE.lit (strL "."), extAltRE]

/-- Embeds `EstateResearchRenamerV2.validate_filename`:
`bool(VALIDATION_PATTERN.match(filename))`.  Python's `$` anchor matches
at the end of the string and also just before a newline that ends the
string, hence the optional trailing `'\n'`. -/
def validateFilename (f : Str) : Bool :=
  RE.rmatch (.comp sopCore (RE.opt (RE.lit (strL "\n")))) f

/-- The fields of a name in SOP v2.1 form, as the specification
describes them. -/
structure SOPName where
  date : Str
  matter : Str
  lastName : Str
  firstName : Str
  middleName : Str
  dept : Str
  docType : Str
  subtype : Str
  lifecycle : Str
  secTag : Char
  legal : Str
  tieBk : Str
  ext : Str
deriving Repr

/-- Joining the fields: underscores between all fields, the optional
tie-breaker suffix appended to the legal description, a dot before the
extension (grouped to the right, following the pattern's nesting). -/
def renderSOP (n : SOPName) : Str :=
  n.date ++ (strL "_" ++ (n.matter ++ (strL "_" ++ (n.lastName ++ (strL "_" ++
  (n.firstName ++ (strL "_" ++ (n.middleName ++ (strL "_" ++ (n.dept ++
  (strL "_" ++ (n.docType ++ (strL "_" ++ (n.subtype ++ (strL "_" ++
  (n.lifecycle ++ (strL "_" ++ ([n.secTag] ++ (strL "_" ++ (n.legal ++
  (n.tieBk ++ (strL "." ++ n.ext))))))))))))))))))))))

/-- The field conditions the specification states: an 8-digit date, a
matter ID of letters/digits/underscores, letter-only names, a middle
name of letters or `NA`, a known department code, letter-only doc type
and subtype, a lifecycle of `[DSFAR]` + digits + optional derivative, a
known security tag, a legal description of letters/digits/underscores,
an optional two-digit tie-breaker, and a known extension. -/
def SOPWellFormed (n : SOPName) : Prop :=
  (n.date.length = 8 ∧ ∀ c ∈ n.date, isDig c = true) ∧
  (n.matter ≠ [] ∧ ∀ c ∈ n.matter, isAlnumU c = true) ∧
  (n.lastName ≠ [] ∧ ∀ c ∈ n.lastName, isAlpha c = true) ∧
  (n.firstName ≠ [] ∧ ∀ c ∈ n.firstName, isAlpha c = true) ∧
  ((n.middleName ≠ [] ∧ ∀ c ∈ n.middleName, isAlpha c = true) ∨
    n.middleName = strL "NA") ∧
  n.dept ∈ [strL "LEG", strL "FIN", strL "ADM", strL "TAX", strL "INS",
    strL "REI"] ∧
  (n.docType ≠ [] ∧ ∀ c ∈ n.docType, isAlpha c = true) ∧
  (n.subtype ≠ [] ∧ ∀ c ∈ n.subtype, isAlpha c = true) ∧
  (∃ c ds dv, n.lifecycle = c :: (ds ++ dv) ∧ isLifeLead c = true ∧
    ds ≠ [] ∧ (∀ d ∈ ds, isDig d = true) ∧
    dv ∈ [([] : Str), strL "_OCR", strL "_BK", strL "_RED"]) ∧
  isSecTag n.secTag = true ∧
  (n.legal ≠ [] ∧ ∀ c ∈ n.legal, isAlnumU c = true) ∧
  (n.tieBk = [] ∨ ∃ d1 d2, n.tieBk = ['-', d1, d2] ∧ isDig d1 = true ∧
    isDig d2 = true) ∧
  n.ext ∈ [strL "pdf", strL "docx", strL "xlsx", strL "jpg", strL "png",
    strL "mp4", strL "wav", strL "csv"]

/-- A string in SOP v2.1 form. -/
def MatchesSOP (f : Str) : Prop :=
  ∃ n : SOPName, SOPWellFormed n ∧ f = renderSOP n

theorem catAll_single (r : RE) : catAll [r] = r := rfl

theorem catAll_cons_rmatch (r s : RE) (rs : List RE) (x : Str) :
    RE.rmatch (catAll (r :: s :: rs)) x = true ↔
      ∃ t u, x = t ++ u ∧ RE.rmatch r t = true ∧
        RE.rmatch (catAll (s :: rs)) u = true := by
  have hc : catAll (r :: s :: rs) = .comp r (catAll (s :: rs)) := rfl
  rw [hc, RE.comp_rmatch]

theorem catAll_intro2 {r s : RE} {rs : List RE} {t u : Str}
    (h1 : RE.rmatch r t = true) (h2 : RE.rmatch (catAll (s :: rs)) u = true) :
    RE.rmatch (catAll (r :: s :: rs)) (t ++ u) = true :=
  (catAll_cons_rmatch r s rs (t ++ u)).mpr ⟨t, u, rfl, h1, h2⟩

/-- The language of `VALIDATION_PATTERN`'s body is exactly the SOP v2.1
name grammar the specification describes. -/
theorem sopCore_rmatch_iff (f : Str) :
    RE.rmatch sopCore f = true ↔ MatchesSOP f := by
  constructor
  · intro h
    simp only [sopCore, catAll_cons_rmatch, catAll_single, undRE, deptRE,
      derivAltRE, lifecycleRE, extAltRE, RE.comp_rmatch, RE.plus_rmatch,
      RE.opt_rmatch, RE.many1_cls_rmatch, RE.repN_cls_rmatch, RE.lit_rmatch,
      RE.cls_rmatch] at h
    obtain ⟨d, _, rfl, hdate,
      _, _, rfl, rfl,
      m, _, rfl, hmatter,
      _, _, rfl, rfl,
      ln, _, rfl, hlast,
      _, _, rfl, rfl,
      fn, _, rfl, hfirst,
      _, _, rfl, rfl,
      mid, _, rfl, hmid,
      _, _, rfl, rfl,
      dp, _, rfl, hdept,
      _, _, rfl, rfl,
      dt, _, rfl, hdoct,
      _, _, rfl, rfl,
      stp, _, rfl, hsub,
      _, _, rfl, rfl,
      lc, _, rfl, hlife,
      _, _, rfl, rfl,
      sc, _, rfl, hsec,
      _, _, rfl, rfl,
      lg, _, rfl, hlegal,
      tb, _, rfl, htb,
      dot, e, rfl, rfl, hext⟩ := h
    obtain ⟨_, _, rfl, ⟨c, rfl, hc⟩, ds, dv, rfl, ⟨hds1, hds2⟩, hdv⟩ := hlife
    obtain ⟨s1, rfl, hs1⟩ := hsec
    refine ⟨⟨d, m, ln, fn, mid, dp, dt, stp, [c] ++ (ds ++ dv), s1, lg, tb, e⟩,
      ?_, ?_⟩
    · refine ⟨hdate, hmatter, hlast, hfirst, hmid, ?_, hdoct, hsub, ?_, hs1,
        hlegal, ?_, ?_⟩
      · rcases hdept with rfl | rfl | rfl | rfl | rfl | rfl <;> simp
      · refine ⟨c, ds, dv, rfl, hc, hds1, hds2, ?_⟩
        rcases hdv with rfl | rfl | rfl | rfl <;> simp
      · rcases htb with rfl | ⟨ta, tbb, rfl, rfl, hlen, hdig⟩
        · exact Or.inl rfl
        · right
          match tbb, hlen with
          | [d1, d2], _ =>
              exact ⟨d1, d2, rfl, hdig d1 (by simp), hdig d2 (by simp)⟩
      · rcases hext with rfl | rfl | rfl | rfl | rfl | rfl | rfl | rfl <;> simp
    · simp [renderSOP]
  · rintro ⟨n, ⟨⟨hd1, hd2⟩, ⟨hm1, hm2⟩, hln, hfn, hmid, hdept, hdt, hst,
      ⟨c, ds, dv, hlc, hc, hds1, hds2, hdv⟩, hsec, hlg, htb, hext⟩, rfl⟩
    have hund : RE.rmatch undRE (strL "_") = true := (RE.lit_rmatch _ _).mpr rfl
    have hdate : RE.rmatch (RE.repN 8 (.cls isDig)) n.date = true :=
      (RE.repN_cls_rmatch _ _ _).mpr ⟨hd1, hd2⟩
    have hmat : RE.rmatch (RE.many1 (.cls isAlnumU)) n.matter = true :=
      (RE.many1_cls_rmatch _ _).mpr ⟨hm1, hm2⟩
    have hlast : RE.rmatch (RE.many1 (.cls isAlpha)) n.lastName = true :=
      (RE.many1_cls_rmatch _ _).mpr hln
    have hfirst : RE.rmatch (RE.many1 (.cls isAlpha)) n.firstName = true :=
      (RE.many1_cls_rmatch _ _).mpr hfn
    have hmiddle : RE.rmatch
        (.plus (RE.many1 (.cls isAlpha)) (RE.lit (strL "NA"))) n.middleName
        = true := by
      rcases hmid with hm | hm
      · exact (RE.plus_rmatch _ _ _).mpr (Or.inl ((RE.many1_cls_rmatch _ _).mpr hm))
      · exact (RE.plus_rmatch _ _ _).mpr (Or.inr ((RE.lit_rmatch _ _).mpr hm))
    have hdep : RE.rmatch deptRE n.dept = true := by
      simp only [List.mem_cons, List.mem_singleton, List.not_mem_nil,
        or_false] at hdept
      rcases hdept with h | h | h | h | h | h <;>
        · rw [h]
          simp [deptRE, RE.plus_rmatch, RE.lit_rmatch]
    have hdoc : RE.rmatch (RE.many1 (.cls isAlpha)) n.docType = true :=
      (RE.many1_cls_rmatch _ _).mpr hdt
    have hsubt : RE.rmatch (RE.many1 (.cls isAlpha)) n.subtype = true :=
      (RE.many1_cls_rmatch _ _).mpr hst
    have hlife : RE.rmatch lifecycleRE n.lifecycle = true := by
      rw [hlc]
      rw [lifecycleRE]
      refine (RE.comp_rmatch _ _ _).mpr ⟨[c], ds ++ dv, rfl,
        (RE.cls_rmatch _ _).mpr ⟨c, rfl, hc⟩, ?_⟩
      refine (RE.comp_rmatch _ _ _).mpr ⟨ds, dv, rfl,
        (RE.many1_cls_rmatch _ _).mpr ⟨hds1, hds2⟩, ?_⟩
      simp only [List.mem_cons, List.mem_singleton, List.not_mem_nil,
        or_false] at hdv
      rcases hdv with rfl | rfl | rfl | rfl <;>
        simp [RE.opt_rmatch, derivAltRE, RE.plus_rmatch, RE.lit_rmatch]
    have hsec1 : RE.rmatch (RE.cls isSecTag) [n.secTag] = true :=
      (RE.cls_rmatch _ _).mpr ⟨n.secTag, rfl, hsec⟩
    have hleg : RE.rmatch (RE.many1 (.cls isAlnumU)) n.legal = true :=
      (RE.many1_cls_rmatch _ _).mpr hlg
    have htie : RE.rmatch
        (RE.opt (.comp (RE.lit (strL "-")) (RE.repN 2 (.cls isDig))))
        n.tieBk = true := by
      rcases htb with htb | ⟨d1, d2, htb, hdig1, hdig2⟩
      · rw [htb]
        exact (RE.opt_rmatch _ _).mpr (Or.inl rfl)
      · rw [htb]
        refine (RE.opt_rmatch _ _).mpr (Or.inr ?_)
        refine (RE.comp_rmatch _ _ _).mpr ⟨['-'], [d1, d2], rfl,
          (RE.lit_rmatch _ _).mpr rfl, ?_⟩
        refine (RE.repN_cls_rmatch _ _ _).mpr ⟨rfl, ?_⟩
        intro d hd
        rcases List.mem_cons.mp hd with rfl | hd
        · exact hdig1
        · rcases List.mem_cons.mp hd with rfl | hd
          · exact hdig2
          · exact absurd hd (by simp)
    have hdot : RE.rmatch (RE.lit (strL ".")) (strL ".") = true :=
      (RE.lit_rmatch _ _).mpr rfl
    have hex : RE.rmatch extAltRE n.ext = true := by
      simp only [List.mem_cons, List.mem_singleton, List.not_mem_nil,
        or_false] at hext
      rcases hext with h | h | h | h | h | h | h | h <;>
        · rw [h]
          simp [extAltRE, RE.plus_rmatch, RE.lit_rmatch]
    simp only [sopCore, renderSOP]
    apply catAll_intro2 hdate
    apply catAll_intro2 hund
    apply catAll_intro2 hmat
    apply catAll_intro2 hund
    apply catAll_intro2 hlast
    apply catAll_intro2 hund
    apply catAll_intro2 hfirst
    apply catAll_intro2 hund
    apply catAll_intro2 hmiddle
    apply catAll_intro2 hund
    apply catAll_intro2 hdep
    apply catAll_intro2 hund
    apply catAll_intro2 hdoc
    apply catAll_intro2 hund
    apply catAll_intro2 hsubt
    apply catAll_intro2 hund
    apply catAll_intro2 hlife
    apply catAll_intro2 hund
    apply catAll_intro2 hsec1
    apply catAll_intro2 hund
    apply catAll_intro2 hleg
    apply catAll_intro2 htie
    apply catAll_intro2 hdot
    exact hex

/-- The function `validate_filename` accepts exactly the SOP v2.1 names, optionally
followed by one trailing newline (Python's `$` anchor also matches just
before a newline that ends the string). -/
theorem validateFilename_iff (f : Str) :
    validateFilename f = true ↔
      MatchesSOP f ∨ ∃ g, MatchesSOP g ∧ f = g ++ strL "\n" := by
  rw [validateFilename, RE.comp_rmatch]
  constructor
  · rintro ⟨t, u, rfl, ht, hu⟩
    rw [RE.opt_rmatch, RE.lit_rmatch] at hu
    rcases hu with rfl | rfl
    · exact Or.inl (by simpa using (sopCore_rmatch_iff t).mp ht)
    · exact Or.inr ⟨t, (sopCore_rmatch_iff t).mp ht, rfl⟩
  · rintro (hf | ⟨g, hg, rfl⟩)
    · exact ⟨f, [], by simp, (sopCore_rmatch_iff f).mpr hf,
        by rw [RE.opt_rmatch]; exact Or.inl rfl⟩
    · exact ⟨g, strL "\n", rfl, (sopCore_rmatch_iff g).mpr hg,
        by rw [RE.opt_rmatch, RE.lit_rmatch]; exact Or.inr rfl⟩

/-- No character of an SOP v2.1 name is a newline (every field draws
from newline-free character classes or literals). -/
theorem MatchesSOP_no_newline {f : Str} (h : MatchesSOP f) : '\n' ∉ f := by
  obtain ⟨n, ⟨⟨_, hd2⟩, ⟨_, hm2⟩, ⟨_, hln2⟩, ⟨_, hfn2⟩, hmid, hdept, ⟨_, hdt2⟩,
    ⟨_, hst2⟩, ⟨c, ds, dv, hlc, hc, _, hds2, hdv⟩, hsec, ⟨_, hlg2⟩, htb,
    hext⟩, rfl⟩ := h
  intro hmem
  rw [renderSOP] at hmem
  simp only [List.mem_append, List.mem_cons, hlc] at hmem
  rcases hmem with h | h | h | h | h | h | h | h | h | h | h | h | h | h |
      h | h | h | h | h | h | h | h | h
  · exact absurd (hd2 _ h) (by decide)
  · exact absurd h (by decide)
  · exact absurd (hm2 _ h) (by decide)
  · exact absurd h (by decide)
  · exact absurd (hln2 _ h) (by decide)
  · exact absurd h (by decide)
  · exact absurd (hfn2 _ h) (by decide)
  · exact absurd h (by decide)
  · rcases hmid with ⟨_, hmid2⟩ | hmid2
    · exact absurd (hmid2 _ h) (by decide)
    · rw [hmid2] at h
      exact absurd h (by decide)
  · exact absurd h (by decide)
  · simp only [List.mem_cons, List.mem_singleton, List.not_mem_nil,
      or_false] at hdept
    rcases hdept with hd | hd | hd | hd | hd | hd <;>
      · rw [hd] at h
        exact absurd h (by decide)
  · exact absurd h (by decide)
  · exact absurd (hdt2 _ h) (by decide)
  · exact absurd h (by decide)
  · exact absurd (hst2 _ h) (by decide)
  · exact absurd h (by decide)
  · rcases h with h | h | h
    · rw [← h] at hc
      exact absurd hc (by decide)
    · exact absurd (hds2 _ h) (by decide)
    · simp only [List.mem_cons, List.mem_singleton, List.not_mem_nil,
        or_false] at hdv
      rcases hdv with hd | hd | hd | hd <;>
        · rw [hd] at h
          revert h
          decide
  · exact absurd h (by decide)
  · rcases h with h | h
    · rw [← h] at hsec
      exact absurd hsec (by decide)
    · exact absurd h (by decide)
  · exact absurd h (by decide)
  · exact absurd (hlg2 _ h) (by decide)
  · rcases htb with htb | ⟨d1, d2, htb, hdig1, hdig2⟩
    · rw [htb] at h
      exact absurd h (by decide)
    · rw [htb] at h
      simp only [List.mem_cons, List.mem_singleton, List.not_mem_nil,
        or_false] at h
      rcases h with h | h | h
      · exact absurd h (by decide)
      · rw [← h] at hdig1
        exact absurd hdig1 (by decide)
      · rw [← h] at hdig2
        exact absurd hdig2 (by decide)
  · rcases h with h | h
    · exact absurd h (by decide)
    · simp only [List.mem_cons, List.mem_singleton, List.not_mem_nil,
        or_false] at hext
      rcases hext with he | he | he | he | he | he | he | he <;>
        · rw [he] at h
          revert h
          decide

theorem trimLast_of_short (front : List Str) (last : Str)
    (h : last.length ≤ 10) : trimLast front last = last := by
  rw [trimLast]
  rw [if_neg (by omega)]

/-- A concrete well-formed SOP v2.1 name used in the examples. -/
def exampleSOP : SOPName :=
  ⟨strL "20240101", strL "24_PR_371", strL "Doe", strL "John", strL "NA",
   strL "LEG", strL "Will", strL "General", strL "F1", 'P',
   strL "EstateFile", [], strL "pdf"⟩

theorem exampleSOP_matches :
    MatchesSOP (strL "20240101_24_PR_371_Doe_John_NA_LEG_Will_General_F1_P_EstateFile.pdf") := by
  refine ⟨exampleSOP, ?_, by decide⟩
  refine ⟨⟨by decide, by decide⟩, ⟨by decide, by decide⟩, ⟨by decide, by decide⟩,
    ⟨by decide, by decide⟩, Or.inr rfl, by decide, ⟨by decide, by decide⟩,
    ⟨by decide, by decide⟩, ⟨'F', strL "1", [], by decide, by decide, by decide,
      by decide, by decide⟩, by decide, ⟨by decide, by decide⟩, Or.inl rfl,
    by decide⟩

/-! ## The self-collision of `process_file` (estate renamer)

A file whose name already equals the name the AI pipeline generates for
it: the only file in the directory is `c1File`, and the analysis
produces exactly its stem. -/

def c1File : Str :=
  strL "20240101_24_PR_371_Doe_John_NA_LEG_Will_General_F1_P_EstateFile.pdf"

def c1Base : Str :=
  strL "20240101_24_PR_371_Doe_John_NA_LEG_Will_General_F1_P_EstateFile"

def c1Renamed : Str :=
  strL "20240101_24_PR_371_Doe_John_NA_LEG_Will_General_F1_P_EstateFile-02.pdf"

/-- The directory contains exactly `c1File`. -/
def c1Ex : Str → Bool := fun n => decide (n = c1File)

theorem c1_tieName : tieName c1Base (strL ".pdf") 2 = c1Renamed := by
  have hd2 : decChars 2 = strL "2" := by
    rw [decChars_eq_of_lt (by norm_num)]
    decide
  rw [tieName, fmt02]
  rw [if_pos (by norm_num)]
  rw [hd2]
  decide

theorem c1_tieBreaker (dir : Str) :
    applyTieBreakerRule c1Ex c1Base dir (strL ".pdf") [] =
      .ok (c1Renamed, [⟨c1File, c1Renamed, dir⟩]) := by
  have hbe : c1Base ++ strL ".pdf" = c1File := by decide
  rw [applyTieBreakerRule, hbe]
  rw [if_pos (by decide)]
  rw [tieBreakerLoop]
  rw [if_pos (by norm_num)]
  rw [c1_tieName]
  rw [if_neg (by decide)]
  simp

/-- Evaluating `process_file` on the already-correctly-named file: the
tie-breaker treats the file itself as a collision, so the file is
renamed to the `-02` variant rather than skipped. -/
theorem c1_processFile_eval :
    processFileV2 c1Ex (strL "d") (strL ".pdf") (strL "estate will text")
        c1Base (some (strL "P")) (.ok (strL "0abc")) (.ok ()) (.ok ())
        c1File =
      ({ originalName := c1File, status := strL "renamed",
         newName := some c1Renamed, checksum := none, error := none },
       { renamedTo := some c1Renamed, sidecarWritten := none }) := by
  rw [processFileV2]
  rw [if_neg (by decide)]
  rw [c1_tieBreaker]
  decide

/-- An AI reply with an overlong matter ID and a one-character legal
description: the truncation loop cannot shorten the name below 137
characters because only the final component is trimmed, and never below
10 characters. -/
def c3Reply : AIReply :=
  { date := strL "20240101",
    matterId := strL "aaaaaaaaaaaaaaaaaaaaaaaaaaaaaaaaaaaaaaaaaaaaaaaaaaaaaaaaaaaaaaaaaaaaaaaaaaaaaaaaaaaaaaaaaaaaaaaaaaaaaaaaaaaaaaaaaaaaaaaaaaaaaaaaaaaaaaaaaaaaaaaaaaaaaa",
    lastName := strL "Doe", firstName := strL "John", middleName := strL "NA",
    deptCode := strL "LEG", docType := strL "Will", subtype := strL "General",
    lifecycle := strL "F1", hasDerivative := strL "false",
    derivativeCode := [], securityTag := strL "P",
    legalDescription := strL "X" }

theorem c3Reply_overlong : 137 < (analyzeBaseName c3Reply).length := by
  rw [analyzeBaseName]
  rw [if_pos (by decide)]
  rw [truncateName]
  rw [trimLast_of_short _ _ (by decide)]
  decide

/-! # Claim theorems -/

/-- C1: the rename step of `EstateResearchRenamerV2.process_file` is not
idempotent — on a file whose name already equals the generated name (the
directory containing only that file), the tie-breaker counts the file
itself as a collision: the result has status `"renamed"` (not `"skip"`)
and the file is renamed to the `-02` variant.  This contradicts the
specification's "idempotent rename-with-collision-avoidance step"; the
analogous `PDFAnalyzer.process_pdf` checks the skip condition before
collision handling and excludes the file's own path.  The theorem
evaluates the embedded code at the failing input. -/
theorem C1_theorem :
    (processFileV2 c1Ex (strL "d") (strL ".pdf") (strL "estate will text")
        c1Base (some (strL "P")) (.ok (strL "0abc")) (.ok ()) (.ok ())
        c1File).1.status = strL "renamed" ∧
    (processFileV2 c1Ex (strL "d") (strL ".pdf") (strL "estate will text")
        c1Base (some (strL "P")) (.ok (strL "0abc")) (.ok ()) (.ok ())
        c1File).2.renamedTo = some c1Renamed ∧
    (processFileV2 c1Ex (strL "d") (strL ".pdf") (strL "estate will text")
        c1Base (some (strL "P")) (.ok (strL "0abc")) (.ok ()) (.ok ())
        c1File).1.status ≠ strL "skip" ∧
    c1Renamed ≠ c1File := by
  rw [c1_processFile_eval]
  refine ⟨rfl, rfl, by decide, by decide⟩

/-- C2: `apply_tie_breaker_rule` returns the base name unchanged when no
file of that name exists; otherwise it returns the candidate with the
smallest counter `02 ≤ NN ≤ 99` whose name is free, appending exactly
one collision-log entry; it errors when all counters are taken; and a
returned name never refers to an existing file. -/
theorem C2_theorem (ex : Str → Bool) (base dir ext : Str)
    (log : List Collision) :
    (ex (base ++ ext) = false →
      applyTieBreakerRule ex base dir ext log = .ok (base ++ ext, log)) ∧
    (ex (base ++ ext) = true →
      ∀ N, 2 ≤ N → N ≤ 99 → ex (tieName base ext N) = false →
        (∀ m, 2 ≤ m → m < N → ex (tieName base ext m) = true) →
        applyTieBreakerRule ex base dir ext log =
          .ok (tieName base ext N,
            log ++ [⟨base ++ ext, tieName base ext N, dir⟩])) ∧
    (ex (base ++ ext) = true →
      (∀ n, 2 ≤ n → n ≤ 99 → ex (tieName base ext n) = true) →
      ∃ e, applyTieBreakerRule ex base dir ext log = .error e) ∧
    (∀ r log2, applyTieBreakerRule ex base dir ext log = .ok (r, log2) →
      ex r = false) := by
  refine ⟨?_, ?_, ?_, ?_⟩
  · intro h
    rw [applyTieBreakerRule]
    rw [if_neg (by rw [h]; exact Bool.false_ne_true)]
  · intro h N hN2 hN99 hNfree hNleast
    rw [applyTieBreakerRule, if_pos h]
    rcases hl : tieBreakerLoop ex base ext 2 with _ | s
    · exact absurd (tieBreakerLoop_none ex base ext 98 2 (by omega) hl N hN2 hN99)
        (by rw [hNfree]; exact Bool.false_ne_true)
    · obtain ⟨M, hM1, hM2, hM3, hM4, rfl⟩ :=
        tieBreakerLoop_some ex base ext 98 2 s (by omega) hl
      have hMN : M = N := by
        rcases Nat.lt_trichotomy M N with hlt | heq | hgt
        · exact absurd (hNleast M hM1 hlt)
            (by rw [hM3]; exact Bool.false_ne_true)
        · exact heq
        · exact absurd (hM4 N hN2 hgt)
            (by rw [hNfree]; exact Bool.false_ne_true)
      rw [hMN]
  · intro h hall
    rw [applyTieBreakerRule, if_pos h]
    rcases hl : tieBreakerLoop ex base ext 2 with _ | s
    · exact ⟨_, rfl⟩
    · obtain ⟨M, hM1, hM2, hM3, _, rfl⟩ :=
        tieBreakerLoop_some ex base ext 98 2 s (by omega) hl
      exact absurd (hall M hM1 hM2) (by rw [hM3]; exact Bool.false_ne_true)
  · intro r log2 hr
    rw [applyTieBreakerRule] at hr
    by_cases h : ex (base ++ ext) = true
    · rw [if_pos h] at hr
      rcases hl : tieBreakerLoop ex base ext 2 with _ | s
      · rw [hl] at hr
        cases hr
      · rw [hl] at hr
        obtain ⟨M, _, _, hM3, _, rfl⟩ :=
          tieBreakerLoop_some ex base ext 98 2 s (by omega) hl
        obtain ⟨rfl, rfl⟩ : tieName base ext M = r ∧
            log ++ [⟨base ++ ext, tieName base ext M, dir⟩] = log2 := by
          cases hr
          exact ⟨rfl, rfl⟩
        exact hM3
    · rw [if_neg h] at hr
      obtain ⟨rfl, rfl⟩ : base ++ ext = r ∧ log = log2 := by
        cases hr
        exact ⟨rfl, rfl⟩
      simpa using h

/-- Witness for C2: with an empty directory the base name is returned
unchanged, and with exactly the base name taken the `-02` candidate is
chosen. -/
theorem C2_witness :
    applyTieBreakerRule (fun _ => false) (strL "a") (strL "d") (strL ".pdf") []
        = .ok (strL "a" ++ strL ".pdf", []) ∧
    applyTieBreakerRule c1Ex c1Base (strL "d") (strL ".pdf") [] =
      .ok (tieName c1Base (strL ".pdf") 2,
        [⟨c1Base ++ strL ".pdf", tieName c1Base (strL ".pdf") 2, strL "d"⟩]) := by
  constructor
  · exact (C2_theorem (fun _ => false) (strL "a") (strL "d") (strL ".pdf") []).1 rfl
  · refine (C2_theorem c1Ex c1Base (strL "d") (strL ".pdf") []).2.1 (by decide)
      2 (by norm_num) (by norm_num) ?_ (fun m hm1 hm2 => by omega)
    rw [c1_tieName]
    decide

/-- C3 counterexample: the claim's 137-character bound fails.  For the
reply `c3Reply` (150-character matter ID, one-character legal
description) the name built by `analyze_with_ai` stays longer than 137
characters, because the truncation loop only trims the final
underscore-separated component. -/
theorem C3_counterexample : 137 < (analyzeBaseName c3Reply).length :=
  c3Reply_overlong

/-- C3 (amended): the base filename produced by `analyze_with_ai`
contains none of the nine reserved characters (each replaced by an
underscore), and it is at most 137 characters long unless trimming was
stopped by the 10-character floor on the final underscore-separated
component, in which case that final component has at most 10
characters. -/
theorem C3_theorem (r : AIReply) :
    (∀ c ∈ analyzeBaseName r, bannedChar c = false) ∧
    ((analyzeBaseName r).length ≤ 137 ∨
      (lastComponent (analyzeBaseName r)).length ≤ 10) :=
  ⟨analyzeBaseName_no_banned r, analyzeBaseName_length r⟩

/-- Witness for C3 at the concrete reply `c3Reply`. -/
theorem C3_witness :
    (analyzeBaseName c3Reply).length ≤ 137 ∨
      (lastComponent (analyzeBaseName c3Reply)).length ≤ 10 :=
  (C3_theorem c3Reply).2

/-- C4 counterexample: with `backup=True` and output equal to input, an
exception raised by the OCR call (here after writing content `2` over
the original content `1`) makes the function return `False` with the
input NOT restored — the original content is lost from `pdf_path` and
the backup file is left behind, refuting "the original file content is
restored … whenever the function returns False". -/
theorem C4_counterexample :
    ocrPdfLikeAdobe (fun _ => true) true (OcrOutcome.raised (some 2))
        (⟨1, none⟩ : OcrState Nat) = (false, ⟨2, some 1⟩) ∧
    (2 : Nat) ≠ 1 := by
  constructor
  · rw [ocrPdfLikeAdobe]
    simp
  · decide

/-- C4 (amended): with `backup=True` and output equal to input, a
backup of the input is taken before OCR; a non-ok exit code restores the
original content, deletes the backup and returns `False`; an ok exit
code returns `True` and deletes the backup exactly when the verification
re-check finds text; a raised exception returns `False` WITHOUT
restoring — the backup file remains and the input keeps whatever the
OCR call wrote. -/
theorem C4_theorem (γ : Type) (hasTextC : γ → Bool) (code : Nat)
    (w : Option γ) (st : OcrState γ) :
    (code ≠ 0 →
      ocrPdfLikeAdobe hasTextC true (.exitCode code w) st =
        (false, { input := st.input, backup := none })) ∧
    (ocrPdfLikeAdobe hasTextC true (.exitCode 0 w) st =
      (true,
        { input := w.getD st.input,
          backup := if hasTextC (w.getD st.input) then none
            else some st.input })) ∧
    (ocrPdfLikeAdobe hasTextC true (.raised w) st =
      (false, { input := w.getD st.input, backup := some st.input })) :=
  ⟨fun h => ocrPdfLikeAdobe_exit_fail hasTextC code w st h,
   ocrPdfLikeAdobe_exit_ok hasTextC w st,
   ocrPdfLikeAdobe_raised hasTextC w st⟩

/-- Witness for C4: a failing exit code (code 2, "input file error")
restores the original content. -/
theorem C4_witness :
    ocrPdfLikeAdobe (fun _ => true) true (OcrOutcome.exitCode 2 (some 7))
        (⟨3, none⟩ : OcrState Nat) = (false, { input := 3, backup := none }) :=
  (C4_theorem Nat (fun _ => true) 2 (some 7) ⟨3, none⟩).1 (by decide)

/-- The concrete string refuting C5 as stated: a well-formed SOP name
with one trailing newline. -/
def c5Bad : Str :=
  strL "20240101_24_PR_371_Doe_John_NA_LEG_Will_General_F1_P_EstateFile.pdf\n"

/-- C5 counterexample: Python's `$` accepts a trailing newline, so
`validate_filename` returns `True` on `c5Bad` although `c5Bad` does not
have the SOP v2.1 shape (its last character is a newline, not an
extension character). -/
theorem C5_counterexample :
    validateFilename c5Bad = true ∧ ¬ MatchesSOP c5Bad := by
  constructor
  · refine (validateFilename_iff c5Bad).mpr (Or.inr ?_)
    exact ⟨strL "20240101_24_PR_371_Doe_John_NA_LEG_Will_General_F1_P_EstateFile.pdf",
      exampleSOP_matches, by decide⟩
  · intro h
    exact MatchesSOP_no_newline h (by decide)

/-- C5 (amended): `validate_filename(f)` returns `True` iff `f` matches
the SOP v2.1 naming pattern described by `MatchesSOP` — an 8-digit date,
matter ID of letters/digits/underscores, letter-only names, middle name
of letters or `NA`, a known department code, letter-only doc type and
subtype, a `[DSFAR]`+digits lifecycle with optional `_OCR`/`_BK`/`_RED`
derivative, a `[PICSR]` security tag, a legal description of
letters/digits/underscores, an optional two-digit `-NN` tie-breaker and
a known extension, all joined by underscores — or `f` is such a match
followed by one trailing newline (Python's `$` semantics). -/
theorem C5_theorem (f : Str) :
    validateFilename f = true ↔
      MatchesSOP f ∨ ∃ g, MatchesSOP g ∧ f = g ++ strL "\n" :=
  validateFilename_iff f

/-- Witness for C5: the example name validates. -/
theorem C5_witness :
    validateFilename
      (strL "20240101_24_PR_371_Doe_John_NA_LEG_Will_General_F1_P_EstateFile.pdf")
      = true :=
  (C5_theorem
      (strL "20240101_24_PR_371_Doe_John_NA_LEG_Will_General_F1_P_EstateFile.pdf")).mpr
    (Or.inl exampleSOP_matches)

/-- C6: the searchable-text check examines only an initial prefix of the
pages (2 in `has_text`, 3 in `check_pdf_text`) and reports text present
iff the stripped concatenation of that prefix is strictly longer than 10
characters; pages beyond the prefix never change the verdict. -/
theorem C6_theorem :
    (∀ pages : List Str, hasTextPdf (.ok pages) = true ↔
      10 < (pyStrip ((pages.take 2).flatten)).length) ∧
    (∀ pages : List Str, ∃ info, checkPdfText (.ok pages) = .ok info ∧
      (info.hasTextKey = true ↔
        10 < (pyStrip ((pages.take 3).flatten)).length)) ∧
    (∀ p q : List Str, p.take 2 = q.take 2 →
      hasTextPdf (.ok p) = hasTextPdf (.ok q)) ∧
    (∀ p q : List Str, p.take 3 = q.take 3 →
      ∀ ip iq, checkPdfText (.ok p) = .ok ip → checkPdfText (.ok q) = .ok iq →
        ip.hasTextKey = iq.hasTextKey) := by
  refine ⟨?_, ?_, ?_, ?_⟩
  · intro pages
    simp [hasTextPdf, collectPages_eq_take]
  · intro pages
    refine ⟨_, rfl, ?_⟩
    simp [checkPdfText, collectPages_eq_take]
  · intro p q h
    simp only [hasTextPdf, collectPages_eq_take, h]
  · intro p q h ip iq hp hq
    have hip := Except.ok.inj hp
    have hiq := Except.ok.inj hq
    rw [← hip, ← hiq]
    simp only [checkPdfText, collectPages_eq_take, h]

/-- Witness for C6: a third page does not change the `has_text` verdict
of `has_text` (2-page prefix). -/
theorem C6_witness :
    hasTextPdf (.ok [strL "first page text", strL "second"]) =
      hasTextPdf (.ok [strL "first page text", strL "second", strL "third"]) :=
  C6_theorem.2.2.1 [strL "first page text", strL "second"]
    [strL "first page text", strL "second", strL "third"] rfl

/-- C7: `process_files` makes one pass: one result per input file, in
order (the result list is the map of the per-file call over the input
list, so no file is processed twice or retried), with one
`time.sleep(0.5)` executed after every file except the last —
`length - 1` sleeps in total. -/
theorem C7_theorem (α β : Type) (step : α → β) (files : List α) :
    processFilesLoop step files = (files.map step, files.length - 1) :=
  processFilesLoop_spec step files

/-- C8: `generate_checksum` digests the complete byte contents of the
file — feeding the 4096-byte blocks to the running hash accumulates
exactly the whole content, for any digest function `H` — and within
`process_file` the checksum is computed exactly when the analysis
assigns security tag `S` or `R` (for runs reaching the rename decision),
with the `.sha256` sidecar written exactly for renamed files with such a
tag. -/
theorem C8_theorem :
    (∀ (H : List Nat → Str) (content : List Nat),
      generateChecksum H content = H content) ∧
    (∀ (ex : Str → Bool) (directory extension text aiBase : Str)
        (secTag : Option Str) (checksumRes : Except Str Str)
        (renameRes writeRes : Except Str Unit) (fileName : Str),
      (((processFileV2 ex directory extension text aiBase secTag checksumRes
          renameRes writeRes fileName).1.status = strL "renamed" ∨
        (processFileV2 ex directory extension text aiBase secTag checksumRes
          renameRes writeRes fileName).1.status = strL "skip") →
        ((processFileV2 ex directory extension text aiBase secTag checksumRes
            renameRes writeRes fileName).1.checksum.isSome ↔
          (secTag = some (strL "S") ∨ secTag = some (strL "R")))) ∧
      ((processFileV2 ex directory extension text aiBase secTag checksumRes
          renameRes writeRes fileName).2.sidecarWritten.isSome ↔
        ((processFileV2 ex directory extension text aiBase secTag checksumRes
            renameRes writeRes fileName).1.status = strL "renamed" ∧
          (secTag = some (strL "S") ∨ secTag = some (strL "R"))))) :=
  ⟨generateChecksum_eq,
   fun ex directory extension text aiBase secTag checksumRes renameRes
       writeRes fileName =>
     ⟨processFileV2_checksum ex directory extension text aiBase secTag
        checksumRes renameRes writeRes fileName,
      processFileV2_sidecar ex directory extension text aiBase secTag
        checksumRes renameRes writeRes fileName⟩⟩

/-- Witness for C8: at the concrete renamed run of `c1File` (security
tag `P`) no checksum is computed. -/
theorem C8_witness :
    (processFileV2 c1Ex (strL "d") (strL ".pdf") (strL "estate will text")
        c1Base (some (strL "P")) (.ok (strL "0abc")) (.ok ()) (.ok ())
        c1File).1.checksum.isSome ↔
      (some (strL "P") = some (strL "S") ∨
        some (strL "P") = some (strL "R")) :=
  (C8_theorem.2 c1Ex (strL "d") (strL ".pdf") (strL "estate will text")
      c1Base (some (strL "P")) (.ok (strL "0abc")) (.ok ()) (.ok ())
      c1File).1
    (Or.inl (by rw [c1_processFile_eval]))

/-- C9: `process_file` and `process_pdf` always return a result whose
status is one of `"renamed"`, `"skip"`, `"error"` (every exception of a
modelled fallible operation is caught and stamped as an error result),
and consequently `successful + skipped + errors = total_processed` in
the summary. -/
theorem C9_theorem :
    (∀ (ex : Str → Bool) (directory extension text aiBase : Str)
        (secTag : Option Str) (checksumRes : Except Str Str)
        (renameRes writeRes : Except Str Unit) (fileName : Str),
      (processFileV2 ex directory extension text aiBase secTag checksumRes
          renameRes writeRes fileName).1.status = strL "renamed" ∨
      (processFileV2 ex directory extension text aiBase secTag checksumRes
          renameRes writeRes fileName).1.status = strL "skip" ∨
      (processFileV2 ex directory extension text aiBase secTag checksumRes
          renameRes writeRes fileName).1.status = strL "error") ∧
    (∀ (fs : List Str) (text newBase : Str) (renameRes : Except Str Unit)
        (fileName : Str),
      (processPdf fs text newBase renameRes fileName).1.status = strL "renamed" ∨
      (processPdf fs text newBase renameRes fileName).1.status = strL "skip" ∨
      (processPdf fs text newBase renameRes fileName).1.status = strL "error") ∧
    (∀ statuses : List Str,
      (∀ s ∈ statuses, s = strL "renamed" ∨ s = strL "skip" ∨
        s = strL "error") →
      (summaryCounts statuses).1 + (summaryCounts statuses).2.1 +
        (summaryCounts statuses).2.2 = statuses.length) :=
  ⟨processFileV2_status, processPdf_status, summaryCounts_total⟩

/-- Witness for C9: the summary counts add up on a concrete status list. -/
theorem C9_witness :
    (summaryCounts [strL "renamed", strL "error", strL "skip"]).1 +
      (summaryCounts [strL "renamed", strL "error", strL "skip"]).2.1 +
      (summaryCounts [strL "renamed", strL "error", strL "skip"]).2.2 =
      ([strL "renamed", strL "error", strL "skip"] : List Str).length :=
  C9_theorem.2.2 [strL "renamed", strL "error", strL "skip"] (by
    intro s hs
    rcases List.mem_cons.mp hs with rfl | hs
    · exact Or.inl rfl
    rcases List.mem_cons.mp hs with rfl | hs
    · exact Or.inr (Or.inr rfl)
    rcases List.mem_cons.mp hs with rfl | hs
    · exact Or.inr (Or.inl rfl)
    · exact absurd hs (by simp))

/-- C10: an unreadable PDF (open/parse exception) is classified as
lacking a text layer: `has_text` returns `False`, `check_pdf_text`
returns the error dictionary, and `process_directory` queues such a file
for OCR (when its name does not end in `.backup`). -/
theorem C10_theorem :
    (∀ e : Str, hasTextPdf (.error e) = false) ∧
    (∀ e : Str, checkPdfText (.error e) = .error e) ∧
    (∀ (files : List (Str × Except Str (List Str))) (name e : Str),
      (name, Except.error e) ∈ files →
      (strL ".backup").isSuffixOf name = false →
      name ∈ pdfsToProcess files) := by
  refine ⟨fun e => rfl, fun e => rfl, ?_⟩
  intro files name e hmem hsuf
  rw [pdfsToProcess]
  refine List.mem_map.mpr ⟨(name, Except.error e), ?_, rfl⟩
  refine List.mem_filter.mpr ⟨hmem, ?_⟩
  simp [hsuf, hasTextPdf]

/-- Witness for C10: a PDF that fails to parse is queued for OCR. -/
theorem C10_witness :
    strL "b.pdf" ∈ pdfsToProcess [(strL "b.pdf", .error (strL "bad"))] :=
  C10_theorem.2.2 [(strL "b.pdf", .error (strL "bad"))] (strL "b.pdf")
    (strL "bad") (by simp) (by decide)
